import Mathlib

/-
  Verification development for the charm `cryptobase` block-cipher mode engine
  (src/charm/core/crypto/cryptobase/block_template.c) and its CTR counter
  (src/charm/core/crypto/cryptobase/_counter.c).

  Byte buffers are modelled as `List Nat` (each entry one byte; XOR is `Nat.xor`,
  which agrees with byte XOR on values < 256 and needs no range side conditions).
  The block primitive (`block_encrypt` / `block_decrypt` with the keyed
  `block_state`) is modelled as a pair of functions on byte lists, fixed for the
  lifetime of an engine, together with the compile-time constant `BLOCK_SIZE`.
  Fallible C paths (PyErr + NULL return) are modelled with `Except`.
  Each operation returns its result together with the engine/counter state as
  mutated at the point of return, so that partial in-place mutation on error
  paths is preserved by the model.
-/

namespace CharmCryptobase

/-- Error kinds raised by the C code (distinct `PyErr_*` messages). -/
inductive Err where
  /-- ValueError "Input strings must be a multiple of %i in length". -/
  | lengthError : Err
  /-- OverflowError "counter wrapped without allow_wraparound". -/
  | overflow : Err
  /-- TypeError "CTR counter function returned string not of length %i" or
  "CTR counter function didn't return a string". -/
  | ctrType : Err
  /-- ValueError "decrypt function not enabled." (PRF mode). -/
  | prfDisabled : Err
  /-- SystemError "Unknown ciphertext feedback mode" or "sync() operation not defined". -/
  | sysError : Err
deriving DecidableEq, Repr

/-- The six feedback modes `MODE_ECB .. MODE_CTR` of block_template.h. -/
inductive Mode where
  | ECB : Mode
  | CBC : Mode
  | CFB : Mode
  | PGP : Mode
  | OFB : Mode
  | CTR : Mode
deriving DecidableEq, Repr

/-- The abstract block-cipher primitive: `BLOCK_SIZE` plus the keyed
`block_encrypt` / `block_decrypt` transforms (the `block_state` is fixed
after `block_init`, so it is folded into the two functions). `BLOCK_SIZE`
is a positive compile-time constant in every algorithm module. -/
structure Prim where
  blockSize : Nat
  blockSize_pos : 0 < blockSize
  enc : List Nat → List Nat
  dec : List Nat → List Nat

/-- The update `buf[off+i] ^= s[i]` for `i < s.length`: XOR a segment into a buffer
at a byte offset, leaving all other bytes unchanged. -/
def xorInto : List Nat → Nat → List Nat → List Nat
  | buf, _, [] => buf
  | [], _, _ :: _ => []
  | b :: buf, 0, x :: s => (b ^^^ x) :: xorInto buf 0 s
  | b :: buf, o + 1, s => b :: xorInto buf o s

/-- The update `buf[off+i] = s[i]` for `i < s.length`: overwrite a segment of a buffer
at a byte offset, leaving all other bytes unchanged. -/
def setSeg : List Nat → Nat → List Nat → List Nat
  | buf, _, [] => buf
  | [], _, _ :: _ => []
  | _ :: buf, 0, x :: s => x :: setSeg buf 0 s
  | b :: buf, o + 1, s => b :: setSeg buf o s

/-- Fuel-bounded worker for `chunks`; the fuel bounds the number of loop
iterations, and `l.length` always suffices because every iteration drops at
least one byte. -/
def chunksAux : Nat → Nat → List Nat → List (List Nat)
  | _, 0, _ => []
  | 0, _ + 1, _ => []
  | _ + 1, _ + 1, [] => []
  | fuel + 1, m + 1, a :: t =>
    (a :: t).take (m + 1) :: chunksAux fuel (m + 1) ((a :: t).drop (m + 1))

/-- Split a list into consecutive chunks of `n` bytes (the loops
`for (i = 0; i < len; i += n)` of block_template.c walk the input in
exactly these chunks; the last chunk is the partial remainder when the
length is not a multiple of `n`). -/
def chunks (n : Nat) (l : List Nat) : List (List Nat) :=
  chunksAux l.length n l

/-
  ===========  Counter (src/charm/core/crypto/cryptobase/_counter.c)  ===========
-/

/-- One pass of the carrying-addition loop of `CounterLEObject_increment`
(and, on the reversed list, `CounterBEObject_increment`):
`tmp = *p + carry; carry = tmp >> 8; *p = tmp & 0xff`, least-significant
byte first. Returns the new bytes and the final carry. -/
def incFrom : Nat → List Nat → List Nat × Nat
  | carry, [] => ([], carry)
  | carry, b :: rest =>
    let tmp := b + carry
    let r := incFrom (tmp / 256) rest
    ((tmp % 256) :: r.1, r.2)

/-- The `PCT_CounterObject` state: prefix bytes, the `nbytes`-wide mutable
value, suffix bytes, the two policy flags, the endianness (which of the two
`inc_func` variants was installed), and the carry flag. The stored buffer is
`prefx ++ val ++ suffix` and `buf_size` is its length. -/
structure Counter where
  prefx : List Nat
  val : List Nat
  suffix : List Nat
  allow_wraparound : Bool
  little_endian : Bool
  carry : Bool
deriving DecidableEq, Repr

/-- The `inc_func` pointer: `CounterLEObject_increment` walks the value bytes forward,
`CounterBEObject_increment` walks them backward; both start with carry 1 and
store the final carry in `self->carry`. -/
def Counter.increment (c : Counter) : Counter :=
  if c.little_endian then
    let r := incFrom 1 c.val
    { c with val := r.1, carry := r.2 != 0 }
  else
    let r := incFrom 1 c.val.reverse
    { c with val := r.1.reverse, carry := r.2 != 0 }

/-- Model of `CounterObject_call` (the counter's `next()`): fails with OverflowError
if `carry` is set and wraparound is not allowed; otherwise returns the whole
stored buffer `prefix ++ value ++ suffix` and then increments the value. -/
def counterCall (c : Counter) : Option (List Nat × Counter) :=
  if c.carry = true ∧ c.allow_wraparound = false then none
  else some (c.prefx ++ c.val ++ c.suffix, c.increment)

/-- Numeric folding loop of `_CounterObject_next_value`:
`x = (x << 8) | ord(p)` over the value bytes from most-significant to
least-significant. -/
def foldValue (l : List Nat) : Nat :=
  l.foldl (fun x b => (x <<< 8) ||| b) 0

/-- Model of `_CounterObject_next_value` (`next_value` method): fails with
OverflowError if `carry` is set and wraparound is not allowed; otherwise
returns the current numeric value of the counter field in the configured
endianness, without advancing the state. -/
def counterNextValue (c : Counter) : Option Nat :=
  if c.carry = true ∧ c.allow_wraparound = false then none
  else some (foldValue (if c.little_endian then c.val.reverse else c.val))

/-- Iterate `next()` `n` times, returning the final counter state, or
`none` if some call in the sequence failed. -/
def counterCalls : Nat → Counter → Option Counter
  | 0, c => some c
  | n + 1, c =>
    match counterCall c with
    | none => none
    | some r => counterCalls n r.2

/-
  ===========  Mode engine (src/charm/core/crypto/cryptobase/block_template.c)  ===========
-/

/-- The CTR keystream-index source held in `self->counter`: absent (non-CTR
modes), the built-in `PCT_CounterObject` used through the
`__PCT_CTR_SHORTCUT__` fast path, or an arbitrary callable used through
`PyObject_CallObject`. The callable is modelled as a pure function of the
call index (`none` = the call raised or returned a non-string); the index is
advanced every time the callable is invoked. -/
inductive CtrSource where
  | noCounter : CtrSource
  | shortcut : Counter → CtrSource
  | callable : (Nat → Option (List Nat)) → Nat → CtrSource

/-- The `ALGobject` fields that the mode loops read and write. -/
structure Engine where
  mode : Mode
  segment_size : Nat
  IV : List Nat
  oldCipher : List Nat
  count : Nat
  prf_mode : Bool
  ctr : CtrSource

/-- Model of `ALGnew`, lines 161-190: the state set up after the parameter checks
pass (`IVlen` is `0` or `BLOCK_SIZE`; the buffer is zeroed and then the
first `IVlen` bytes are copied in; `segment_size` defaults to 8 for CFB;
`count` starts at 8 for PGP and at `BLOCK_SIZE` otherwise). -/
def ALGnew (P : Prim) (mode : Mode) (iv : List Nat) (seg : Nat) (src : CtrSource) : Engine :=
  { mode := mode
    segment_size := if mode = Mode.CFB ∧ seg = 0 then 8 else seg
    IV := iv ++ List.replicate (P.blockSize - iv.length) 0
    oldCipher := List.replicate P.blockSize 0
    count := if mode = Mode.PGP then 8 else P.blockSize
    prf_mode := false
    ctr := src }

/-- Model of `ALG_SetMode`: `setMode(i)` sets the PRF-only flag when `i >= TRUE`. -/
def ALG_SetMode (e : Engine) (enable_prf : Nat) : Engine :=
  if 1 ≤ enable_prf then { e with prf_mode := true } else e

/-- ECB encryption loop: each `BLOCK_SIZE` chunk through `block_encrypt`
independently. -/
def ecbEncrypt (P : Prim) (cs : List (List Nat)) : List (List Nat) :=
  cs.map P.enc

/-- ECB decryption loop: each chunk through `block_decrypt` independently. -/
def ecbDecrypt (P : Prim) (cs : List (List Nat)) : List (List Nat) :=
  cs.map P.dec

/-- CBC encryption loop: `temp = str ^ IV; block_encrypt(temp, out);
IV = out`. Returns the ciphertext chunks and the final IV. -/
def cbcEncrypt (P : Prim) : List (List Nat) → List Nat → List (List Nat) × List Nat
  | [], iv => ([], iv)
  | c :: rest, iv =>
    let ct := P.enc (List.zipWith Nat.xor c iv)
    let r := cbcEncrypt P rest ct
    (ct :: r.1, r.2)

/-- CBC decryption loop: `oldCipher = IV; block_decrypt(str, temp);
out = temp ^ IV; IV = str`. Returns the plaintext chunks, the final IV and
the final oldCipher. -/
def cbcDecrypt (P : Prim) :
    List (List Nat) → List Nat → List Nat → List (List Nat) × List Nat × List Nat
  | [], iv, oldC => ([], iv, oldC)
  | c :: rest, iv, _ =>
    let pt := List.zipWith Nat.xor (P.dec c) iv
    let r := cbcDecrypt P rest c iv
    (pt :: r.1, r.2)

/-- CFB encryption loop over `segment_size/8`-byte chunks:
`block_encrypt(IV, temp); out = str ^ temp`; the shift register takes the
output segment (wholesale replacement when the segment equals the block). -/
def cfbEncrypt (P : Prim) (seg : Nat) :
    List (List Nat) → List Nat → List (List Nat) × List Nat
  | [], iv => ([], iv)
  | c :: rest, iv =>
    let temp := P.enc iv
    let out := List.zipWith Nat.xor c temp
    let iv' := if seg = P.blockSize * 8 then out else iv.drop (seg / 8) ++ out
    let r := cfbEncrypt P seg rest iv'
    (out :: r.1, r.2)

/-- CFB decryption loop: `block_encrypt(IV, temp); out = str ^ temp`; the
shift register takes the input ciphertext segment. -/
def cfbDecrypt (P : Prim) (seg : Nat) :
    List (List Nat) → List Nat → List (List Nat) × List Nat
  | [], iv => ([], iv)
  | c :: rest, iv =>
    let temp := P.enc iv
    let out := List.zipWith Nat.xor c temp
    let iv' := if seg = P.blockSize * 8 then c else iv.drop (seg / 8) ++ c
    let r := cfbDecrypt P seg rest iv'
    (out :: r.1, r.2)

/-- OFB encryption loop: `block_encrypt(IV, temp); IV = temp;
out = str ^ temp`. -/
def ofbEncrypt (P : Prim) : List (List Nat) → List Nat → List (List Nat) × List Nat
  | [], iv => ([], iv)
  | c :: rest, iv =>
    let temp := P.enc iv
    let r := ofbEncrypt P rest temp
    (List.zipWith Nat.xor c temp :: r.1, r.2)

/-- OFB decryption loop: identical structure, `out = str ^ IV` after
`IV = temp`. -/
def ofbDecrypt (P : Prim) : List (List Nat) → List Nat → List (List Nat) × List Nat
  | [], iv => ([], iv)
  | c :: rest, iv =>
    let temp := P.enc iv
    let r := ofbDecrypt P rest temp
    (List.zipWith Nat.xor c temp :: r.1, r.2)

/-- PGP encryption, block phase (entered with `count = 0`), expressed over
the `BLOCK_SIZE` chunks of the remaining bytes. For every chunk followed by
more input: `block_encrypt(oldCipher, IV)` and `buffer = IV ^= str` over a
full block. The trailing chunk of 1..`BLOCK_SIZE` bytes gets one more
refill and sets `count` to the remainder length. Returns
(output, final IV, final count). -/
def pgpEncChunks (P : Prim) (oldC : List Nat) :
    List (List Nat) → List Nat × List Nat × Nat
  | [] => ([], P.enc oldC, 0)
  | [c] =>
    let ivE := P.enc oldC
    (List.zipWith Nat.xor ivE c, xorInto ivE 0 c, c.length)
  | c :: c' :: rest =>
    let ivE := P.enc oldC
    let out1 := List.zipWith Nat.xor ivE c
    let r := pgpEncChunks P oldC (c' :: rest)
    (out1 ++ r.1, r.2)

/-- PGP decryption, block phase: same refills from `oldCipher`, but
`buffer = old IV byte ^ str` and the IV takes the input ciphertext bytes. -/
def pgpDecChunks (P : Prim) (oldC : List Nat) :
    List (List Nat) → List Nat × List Nat × Nat
  | [] => ([], P.enc oldC, 0)
  | [c] =>
    let ivE := P.enc oldC
    (List.zipWith Nat.xor ivE c, setSeg ivE 0 c, c.length)
  | c :: c' :: rest =>
    let ivE := P.enc oldC
    let out1 := List.zipWith Nat.xor ivE c
    let r := pgpDecChunks P oldC (c' :: rest)
    (out1 ++ r.1, r.2)

/-- The `MODE_PGP` branch of `ALG_Encrypt`: if the input fits in the remaining
`BLOCK_SIZE - count` bytes of the XOR cache, `buffer = IV[count+i] ^= str`;
otherwise consume those bytes, then run the block phase. Returns
(output, final IV, final count). -/
def pgpEncrypt (P : Prim) (oldC iv : List Nat) (cnt : Nat) (s : List Nat) :
    List Nat × List Nat × Nat :=
  if s.length ≤ P.blockSize - cnt then
    (List.zipWith Nat.xor (iv.drop cnt) s, xorInto iv cnt s, cnt + s.length)
  else
    let h := P.blockSize - cnt
    let out1 := List.zipWith Nat.xor (iv.drop cnt) (s.take h)
    let r := pgpEncChunks P oldC (chunks P.blockSize (s.drop h))
    (out1 ++ r.1, r.2)

/-- The `MODE_PGP` branch of `ALG_Decrypt`: mirror image, with
`buffer = old IV byte ^ str` and `IV[count+i] = str[i]`. -/
def pgpDecrypt (P : Prim) (oldC iv : List Nat) (cnt : Nat) (s : List Nat) :
    List Nat × List Nat × Nat :=
  if s.length ≤ P.blockSize - cnt then
    (List.zipWith Nat.xor (iv.drop cnt) s, setSeg iv cnt s, cnt + s.length)
  else
    let h := P.blockSize - cnt
    let out1 := List.zipWith Nat.xor (iv.drop cnt) (s.take h)
    let r := pgpDecChunks P oldC (chunks P.blockSize (s.drop h))
    (out1 ++ r.1, r.2)

/-- Keystream-block refill inside the CTR loop (lines 369-429): the
shortcut path checks the counter's carry/wraparound invariant and that
`buf_size == BLOCK_SIZE`, encrypts the whole stored buffer and increments
the counter; the callable path invokes the generator and requires a string
of exactly `BLOCK_SIZE` bytes. Returns the counter block to encrypt and the
advanced source, or the error and the source as left by the failed call. -/
def ctrRefill (B : Nat) : CtrSource → Except Err (List Nat) × CtrSource
  | .noCounter => (.error .sysError, .noCounter)
  | .shortcut c =>
    if c.carry = true ∧ c.allow_wraparound = false then
      (.error .overflow, .shortcut c)
    else if c.prefx.length + c.val.length + c.suffix.length ≠ B then
      (.error .ctrType, .shortcut c)
    else
      (.ok (c.prefx ++ c.val ++ c.suffix), .shortcut c.increment)
  | .callable g i =>
    match g i with
    | none => (.error .ctrType, .callable g (i + 1))
    | some s =>
      if s.length ≠ B then (.error .ctrType, .callable g (i + 1))
      else (.ok s, .callable g (i + 1))

/-- CTR loop, aligned case (`count = 0`, i.e. a freshly refilled keystream
block in `IV`), expressed over the `BLOCK_SIZE` chunks of the remaining
input: XOR until the input is used up, refilling through `ctrRefill` at
each block boundary (a final chunk of 1..`BLOCK_SIZE` bytes only advances
`count`). Returns (output-or-error, IV, count, counter source) exactly as
the C loop leaves them. -/
def ctrEncChunks (P : Prim) (iv : List Nat) (src : CtrSource) :
    List (List Nat) → Except Err (List Nat) × List Nat × Nat × CtrSource
  | [] => (.ok [], iv, 0, src)
  | [c] => (.ok (List.zipWith Nat.xor iv c), xorInto iv 0 c, c.length, src)
  | c :: c' :: rest =>
    let out1 := List.zipWith Nat.xor iv c
    let iv1 := xorInto iv 0 c
    match ctrRefill P.blockSize src with
    | (.error er, src') => (.error er, iv1, P.blockSize, src')
    | (.ok k, src') =>
      let r := ctrEncChunks P (P.enc k) src' (c' :: rest)
      (match r.1 with
       | .ok o => .ok (out1 ++ o)
       | .error er => .error er, r.2)

/-- The `MODE_CTR` branch of `ALG_Encrypt`: first use up the
`BLOCK_SIZE - count` unconsumed bytes of the current keystream block
(none when `count = BLOCK_SIZE`, as after construction); if the input ends
within them, only `count` advances; otherwise refill and continue aligned
over the remaining chunks. -/
def ctrEncLoop (P : Prim) (iv : List Nat) (cnt : Nat) (src : CtrSource) (s : List Nat) :
    Except Err (List Nat) × List Nat × Nat × CtrSource :=
  if s.length ≤ P.blockSize - cnt then
    (.ok (List.zipWith Nat.xor (iv.drop cnt) s), xorInto iv cnt s, cnt + s.length, src)
  else
    let h := P.blockSize - cnt
    let out1 := List.zipWith Nat.xor (iv.drop cnt) (s.take h)
    let iv1 := xorInto iv cnt (s.take h)
    match ctrRefill P.blockSize src with
    | (.error er, src') => (.error er, iv1, P.blockSize, src')
    | (.ok k, src') =>
      let r := ctrEncChunks P (P.enc k) src' (chunks P.blockSize (s.drop h))
      (match r.1 with
       | .ok o => .ok (out1 ++ o)
       | .error er => .error er, r.2)

/-- Model of `ALG_Encrypt`: empty input short-circuits; the two length checks
reject before any state is touched; then the mode dispatch runs the
per-mode loop over the input. The returned engine carries the state exactly
as mutated at the point of return (in particular the CTR loop's partial
advances on a failed refill). -/
def ALG_Encrypt (P : Prim) (e : Engine) (s : List Nat) :
    Except Err (List Nat) × Engine :=
  if s.length = 0 then (.ok [], e)
  else if s.length % P.blockSize ≠ 0 ∧ e.mode ≠ Mode.CFB ∧ e.mode ≠ Mode.PGP ∧
      e.mode ≠ Mode.CTR then
    (.error .lengthError, e)
  else if e.mode = Mode.CFB ∧ s.length % (e.segment_size / 8) ≠ 0 then
    (.error .lengthError, e)
  else
    match e.mode with
    | Mode.ECB => (.ok (ecbEncrypt P (chunks P.blockSize s)).flatten, e)
    | Mode.CBC =>
      let r := cbcEncrypt P (chunks P.blockSize s) e.IV
      (.ok r.1.flatten, { e with IV := r.2 })
    | Mode.CFB =>
      let r := cfbEncrypt P e.segment_size (chunks (e.segment_size / 8) s) e.IV
      (.ok r.1.flatten, { e with IV := r.2 })
    | Mode.PGP =>
      let r := pgpEncrypt P e.oldCipher e.IV e.count s
      (.ok r.1, { e with IV := r.2.1, count := r.2.2 })
    | Mode.OFB =>
      let r := ofbEncrypt P (chunks P.blockSize s) e.IV
      (.ok r.1.flatten, { e with IV := r.2 })
    | Mode.CTR =>
      let r := ctrEncLoop P e.IV e.count e.ctr s
      (r.1, { e with IV := r.2.1, count := r.2.2.1, ctr := r.2.2.2 })

/-- Model of `ALG_Decrypt`: the PRF-only check comes first; CTR then delegates to
`ALG_Encrypt`; otherwise empty input short-circuits, the length checks
reject, and the mode dispatch runs the per-mode decryption loop. The `CTR`
arm of the switch is unreachable (it is the C `default:` SystemError). -/
def ALG_Decrypt (P : Prim) (e : Engine) (s : List Nat) :
    Except Err (List Nat) × Engine :=
  if e.prf_mode = true then (.error .prfDisabled, e)
  else if e.mode = Mode.CTR then ALG_Encrypt P e s
  else if s.length = 0 then (.ok [], e)
  else if s.length % P.blockSize ≠ 0 ∧ e.mode ≠ Mode.CFB ∧ e.mode ≠ Mode.PGP then
    (.error .lengthError, e)
  else if e.mode = Mode.CFB ∧ s.length % (e.segment_size / 8) ≠ 0 then
    (.error .lengthError, e)
  else
    match e.mode with
    | Mode.ECB => (.ok (ecbDecrypt P (chunks P.blockSize s)).flatten, e)
    | Mode.CBC =>
      let r := cbcDecrypt P (chunks P.blockSize s) e.IV e.oldCipher
      (.ok r.1.flatten, { e with IV := r.2.1, oldCipher := r.2.2 })
    | Mode.CFB =>
      let r := cfbDecrypt P e.segment_size (chunks (e.segment_size / 8) s) e.IV
      (.ok r.1.flatten, { e with IV := r.2 })
    | Mode.PGP =>
      let r := pgpDecrypt P e.oldCipher e.IV e.count s
      (.ok r.1, { e with IV := r.2.1, count := r.2.2 })
    | Mode.OFB =>
      let r := ofbDecrypt P (chunks P.blockSize s) e.IV
      (.ok r.1.flatten, { e with IV := r.2 })
    | Mode.CTR => (.error .sysError, e)

/-- Model of `ALG_Sync`: fails on a non-PGP engine; when `count != 8`, shifts the
XOR cache to the tail of `IV`, refills the head from `oldCipher + count`,
and resets `count` to 8. -/
def ALG_Sync (P : Prim) (e : Engine) : Except Err Unit × Engine :=
  if e.mode ≠ Mode.PGP then (.error .sysError, e)
  else if e.count ≠ 8 then
    (.ok (),
     { e with IV := (e.oldCipher.drop e.count).take (P.blockSize - e.count) ++
                    e.IV.take e.count
              count := 8 })
  else (.ok (), e)

/-- One engine method call, for stating multi-call invariants. -/
inductive EngineOp where
  | encOp : List Nat → EngineOp
  | decOp : List Nat → EngineOp
  | syncOp : EngineOp

/-- Thread a sequence of `encrypt` / `decrypt` / `sync` calls through an
engine, keeping only the state (outputs and errors are dropped). -/
def runOps (P : Prim) (e : Engine) : List EngineOp → Engine
  | [] => e
  | op :: rest =>
    let e' := match op with
      | EngineOp.encOp s => (ALG_Encrypt P e s).2
      | EngineOp.decOp s => (ALG_Decrypt P e s).2
      | EngineOp.syncOp => (ALG_Sync P e).2
    runOps P e' rest

/-
  ===========  Concrete instances for evaluation  ===========
-/

instance : DecidableEq (Except Err (List Nat))
  | .ok a, .ok b => decidable_of_iff (a = b) (by simp)
  | .error a, .error b => decidable_of_iff (a = b) (by simp)
  | .ok _, .error _ => isFalse (by rintro ⟨⟩)
  | .error _, .ok _ => isFalse (by rintro ⟨⟩)

/-- A concrete one-byte block primitive (add one mod nothing, subtract one)
used for concrete instantiations. -/
def P1 : Prim :=
  { blockSize := 1
    blockSize_pos := Nat.one_pos
    enc := fun b => [b.headD 0 + 1]
    dec := fun b => [b.headD 0 - 1] }

/-- A concrete eight-byte block primitive with a constant encryption output,
used to evaluate the PGP and CTR paths on concrete inputs. -/
def P8 : Prim :=
  { blockSize := 8
    blockSize_pos := by decide
    enc := fun _ => [1, 2, 3, 4, 5, 6, 7, 8]
    dec := fun b => b }

/-- A fresh PGP engine over `P8` with an all-zero IV. -/
def pgpE0 : Engine := ALGnew P8 Mode.PGP (List.replicate 8 0) 0 CtrSource.noCounter

/-- One-shot PGP encryption of 16 zero bytes on a fresh engine. -/
def pgpOneShot : Except Err (List Nat) :=
  (ALG_Encrypt P8 pgpE0 (List.replicate 16 0)).1

/-- Chunked PGP encryption of the same 16 zero bytes: 5 bytes, `sync()`,
then 11 bytes, with the two outputs concatenated. -/
def pgpChunked : Except Err (List Nat) :=
  let r1 := ALG_Encrypt P8 pgpE0 (List.replicate 5 0)
  let e1 := (ALG_Sync P8 r1.2).2
  let r2 := ALG_Encrypt P8 e1 (List.replicate 11 0)
  match r1.1, r2.1 with
  | .ok a, .ok b => .ok (a ++ b)
  | .error er, _ => .error er
  | _, .error er => .error er

/-- A CTR engine over `P8` whose counter value is one increment away from
wrapping (`val = 0xFF`, one-byte counter, wraparound forbidden). -/
def ctrE0 : Engine :=
  ALGnew P8 Mode.CTR (List.replicate 8 0) 0
    (CtrSource.shortcut ⟨[9, 9, 9, 9, 9, 9, 9], [255], [], false, true, false⟩)

/-- The engine state after one successful 4-byte CTR encryption on `ctrE0`:
`count = 4`, and the counter has wrapped (carry set). -/
def ctrE1 : Engine := (ALG_Encrypt P8 ctrE0 (List.replicate 4 0)).2

/-
  ===========  Helper lemmas  ===========
-/

theorem natXor_cancel_left (b a : Nat) : Nat.xor b (Nat.xor b a) = a :=
  Nat.xor_cancel_left b a

theorem natXor_cancel_right (a b : Nat) : Nat.xor (Nat.xor a b) b = a :=
  Nat.xor_cancel_right b a

theorem zipWith_xor_cancel_left : ∀ (s k : List Nat), s.length ≤ k.length →
    List.zipWith Nat.xor k (List.zipWith Nat.xor k s) = s
  | [], _, _ => by simp
  | _ :: _, [], h => by simp at h
  | a :: s, b :: k, h => by
    simp only [List.zipWith]
    rw [natXor_cancel_left, zipWith_xor_cancel_left s k (by simpa using h)]

theorem zipWith_xor_cancel_right : ∀ (s k : List Nat), s.length ≤ k.length →
    List.zipWith Nat.xor (List.zipWith Nat.xor s k) k = s
  | [], _, _ => by simp
  | _ :: _, [], h => by simp at h
  | a :: s, b :: k, h => by
    simp only [List.zipWith]
    rw [natXor_cancel_right, zipWith_xor_cancel_right s k (by simpa using h)]

theorem length_zipWith_xor_left (k s : List Nat) (h : s.length ≤ k.length) :
    (List.zipWith Nat.xor k s).length = s.length := by
  rw [List.length_zipWith]
  omega

theorem chunksAux_congr (n : Nat) : ∀ (fuel fuel' : Nat) (l : List Nat),
    l.length ≤ fuel → l.length ≤ fuel' → chunksAux fuel n l = chunksAux fuel' n l := by
  intro fuel
  induction fuel generalizing n with
  | zero =>
    intro fuel' l h _
    have hl : l = [] := by
      cases l with
      | nil => rfl
      | cons a t => simp at h
    subst hl
    cases n <;> cases fuel' <;> simp [chunksAux]
  | succ fuel ih =>
    intro fuel' l h h'
    cases n with
    | zero => cases l <;> cases fuel' <;> simp [chunksAux]
    | succ m =>
      cases l with
      | nil => cases fuel' <;> simp [chunksAux]
      | cons a t =>
        cases fuel' with
        | zero => simp at h'
        | succ f' =>
          simp only [chunksAux]
          congr 1
          refine ih (m + 1) f' ((a :: t).drop (m + 1)) ?_ ?_ <;>
            simp only [List.length_drop, List.length_cons] at h h' ⊢ <;> omega

theorem chunks_nil (n : Nat) : chunks n [] = [] := by
  cases n <;> rfl

theorem chunks_eq_cons (n : Nat) (l : List Nat) (hn : 0 < n) (hl : l ≠ []) :
    chunks n l = l.take n :: chunks n (l.drop n) := by
  obtain ⟨m, rfl⟩ : ∃ m, n = m + 1 := ⟨n - 1, by omega⟩
  cases l with
  | nil => exact absurd rfl hl
  | cons a t =>
    show chunksAux (a :: t).length (m + 1) (a :: t) = _
    simp only [List.length_cons, chunksAux]
    congr 1
    refine chunksAux_congr (m + 1) t.length ((a :: t).drop (m + 1)).length
      ((a :: t).drop (m + 1)) ?_ (le_refl _)
    simp only [List.length_drop, List.length_cons]
    omega

theorem flatten_chunks (n : Nat) (hn : 0 < n) (l : List Nat) :
    (chunks n l).flatten = l := by
  by_cases hl : l = []
  · subst hl
    simp [chunks_nil]
  · rw [chunks_eq_cons n l hn hl, List.flatten_cons,
      flatten_chunks n hn (l.drop n), List.take_append_drop]
termination_by l.length
decreasing_by
  have : l.length ≠ 0 := by simpa [List.length_eq_zero] using hl
  simp only [List.length_drop]
  omega

theorem chunks_length_mem (n : Nat) (hn : 0 < n) (l : List Nat) (hd : n ∣ l.length) :
    ∀ c ∈ chunks n l, c.length = n := by
  by_cases hl : l = []
  · subst hl
    simp [chunks_nil]
  · have hlen : n ≤ l.length := by
      rcases hd with ⟨k, hk⟩
      have : l.length ≠ 0 := by simpa [List.length_eq_zero] using hl
      rcases k with _ | k
      · omega
      · simp [hk, Nat.mul_succ]
    rw [chunks_eq_cons n l hn hl]
    intro c hc
    rcases List.mem_cons.mp hc with h | h
    · subst h
      simp [List.length_take]
      omega
    · exact chunks_length_mem n hn (l.drop n)
        (by rcases hd with ⟨k, hk⟩; exact ⟨k - 1, by simp [hk]; cases k <;> simp [Nat.mul_succ, Nat.succ_mul] <;> omega⟩) c h
termination_by l.length
decreasing_by
  have : l.length ≠ 0 := by simpa [List.length_eq_zero] using hl
  simp only [List.length_drop]
  omega

theorem chunks_flatten_of_length (n : Nat) (hn : 0 < n) :
    ∀ L : List (List Nat), (∀ c ∈ L, c.length = n) → chunks n L.flatten = L := by
  intro L
  induction L with
  | nil => intro _; simp [chunks_nil]
  | cons c L ih =>
    intro hlen
    have hc : c.length = n := hlen c (by simp)
    have hcne : c ≠ [] := by
      intro h
      subst h
      simp at hc
      omega
    have hne : (c ++ L.flatten) ≠ [] := by
      simp [hcne]
    rw [List.flatten_cons, chunks_eq_cons n _ hn hne]
    have ht : (c ++ L.flatten).take n = c := by
      rw [← hc]
      exact List.take_left c L.flatten
    have hdd : (c ++ L.flatten).drop n = L.flatten := by
      rw [← hc]
      exact List.drop_left c L.flatten
    rw [ht, hdd, ih (fun x hx => hlen x (by simp [hx]))]

/-
  ===========  Claim C9: decrypt on a PRF-only engine  ===========
-/

/-- C9: if an engine is in PRF-only mode, every decrypt call fails
immediately with the unsupported-operation error, for every mode and every
input, returning the engine state unchanged. -/
theorem prf_decrypt_always_fails (P : Prim) (e : Engine) (s : List Nat)
    (h : e.prf_mode = true) :
    ALG_Decrypt P e s = (.error .prfDisabled, e) := by
  simp [ALG_Decrypt, h]

/-- Witness for C9 at a concrete PRF-only engine and input. -/
theorem prf_decrypt_always_fails_witness :
    ALG_Decrypt P1 (ALG_SetMode (ALGnew P1 Mode.ECB [0] 0 CtrSource.noCounter) 1) [5] =
      (.error .prfDisabled, ALG_SetMode (ALGnew P1 Mode.ECB [0] 0 CtrSource.noCounter) 1) :=
  prf_decrypt_always_fails P1 (ALG_SetMode (ALGnew P1 Mode.ECB [0] 0 CtrSource.noCounter) 1)
    [5] rfl

/-
  ===========  Claim C5: CTR decrypt = CTR encrypt  ===========
-/

/-- C5 counterexample: on a CTR engine put into PRF-only mode, decrypt
fails while encrypt succeeds, so decrypt is not the same operation as
encrypt on every CTR engine. -/
theorem ctr_prf_decrypt_ne_encrypt :
    (ALG_Decrypt P1
        (ALG_SetMode (ALGnew P1 Mode.CTR [0] 0
          (CtrSource.shortcut ⟨[], [0], [], false, true, false⟩)) 1) []).1 ≠
      (ALG_Encrypt P1
        (ALG_SetMode (ALGnew P1 Mode.CTR [0] 0
          (CtrSource.shortcut ⟨[], [0], [], false, true, false⟩)) 1) []).1 := by
  decide

/-- C5 (amended: engine not in PRF-only mode): on a CTR engine, decrypt is
literally the same operation as encrypt: same result and same state
transition on every input. -/
theorem ctr_decrypt_eq_encrypt (P : Prim) (e : Engine) (s : List Nat)
    (hm : e.mode = Mode.CTR) (hp : e.prf_mode = false) :
    ALG_Decrypt P e s = ALG_Encrypt P e s := by
  simp [ALG_Decrypt, hm, hp]

/-- Witness for the amended C5 at a concrete CTR engine and input. -/
theorem ctr_decrypt_eq_encrypt_witness :
    ALG_Decrypt P1 (ALGnew P1 Mode.CTR [0] 0
        (CtrSource.shortcut ⟨[], [0], [], false, true, false⟩)) [7, 7] =
      ALG_Encrypt P1 (ALGnew P1 Mode.CTR [0] 0
        (CtrSource.shortcut ⟨[], [0], [], false, true, false⟩)) [7, 7] :=
  ctr_decrypt_eq_encrypt P1 (ALGnew P1 Mode.CTR [0] 0
    (CtrSource.shortcut ⟨[], [0], [], false, true, false⟩)) [7, 7] rfl rfl

/-
  ===========  Claim C6: carry blocks every counter operation  ===========
-/

/-- C6: when the carry flag is set and wraparound is not allowed, both
counter operations — `next()` (the call) and `next_value` — fail with the
overflow error before producing any output. -/
theorem counter_carry_blocks_operations (c : Counter) (hc : c.carry = true)
    (hw : c.allow_wraparound = false) :
    counterCall c = none ∧ counterNextValue c = none := by
  simp [counterCall, counterNextValue, hc, hw]

/-- Witness for C6 at a concrete wrapped counter. -/
theorem counter_carry_blocks_operations_witness :
    counterCall ⟨[], [0], [], false, true, true⟩ = none ∧
      counterNextValue ⟨[], [0], [], false, true, true⟩ = none :=
  counter_carry_blocks_operations ⟨[], [0], [], false, true, true⟩ rfl rfl

/-
  ===========  Claim C8: empty input  ===========
-/

/-- C8 counterexample: a reachable engine (PRF-only mode set through
`setMode`) on which decrypt of the empty input does not return empty
output. -/
theorem empty_input_prf_decrypt_not_ok :
    (ALG_Decrypt P1 (ALG_SetMode (ALGnew P1 Mode.ECB [0] 0 CtrSource.noCounter) 1) []).1 ≠
      .ok [] := by
  decide

/-- C8 (amended: for decrypt the engine must not be PRF-only): encrypt with
empty input always returns empty output with the engine unchanged, and so
does decrypt on every non-PRF-only engine. -/
theorem empty_input_identity (P : Prim) (e : Engine) :
    ALG_Encrypt P e [] = (.ok [], e) ∧
      (e.prf_mode = false → ALG_Decrypt P e [] = (.ok [], e)) := by
  constructor
  · simp [ALG_Encrypt]
  · intro hp
    by_cases hm : e.mode = Mode.CTR
    · simp [ALG_Decrypt, hp, hm, ALG_Encrypt]
    · simp [ALG_Decrypt, hp, hm]

/-- Witness for the amended C8 at a concrete engine. -/
theorem empty_input_identity_witness :
    ALG_Encrypt P1 (ALGnew P1 Mode.CBC [3] 0 CtrSource.noCounter) [] =
      (.ok [], ALGnew P1 Mode.CBC [3] 0 CtrSource.noCounter) ∧
    ALG_Decrypt P1 (ALGnew P1 Mode.CBC [3] 0 CtrSource.noCounter) [] =
      (.ok [], ALGnew P1 Mode.CBC [3] 0 CtrSource.noCounter) :=
  ⟨(empty_input_identity P1 (ALGnew P1 Mode.CBC [3] 0 CtrSource.noCounter)).1,
   (empty_input_identity P1 (ALGnew P1 Mode.CBC [3] 0 CtrSource.noCounter)).2 rfl⟩

/-
  ===========  Claim C2: one-byte counter wrap schedule  ===========
-/

theorem counterCalls_succ_of_ok (n : Nat) (c : Counter)
    (h : ¬(c.carry = true ∧ c.allow_wraparound = false)) :
    counterCalls (n + 1) c = counterCalls n c.increment := by
  rw [counterCalls]
  simp [counterCall, h]

theorem counterCalls_add (m n : Nat) (c : Counter) :
    counterCalls (m + n) c = (counterCalls m c).bind (counterCalls n) := by
  induction m generalizing c with
  | zero => simp [counterCalls]
  | succ m ih =>
    have hm : m + 1 + n = (m + n) + 1 := by omega
    rw [hm]
    simp only [counterCalls]
    cases hc : counterCall c with
    | none => simp
    | some r => simp [ih r.2]

theorem counter_byte_iterate (p s : List Nat) (w le : Bool) :
    ∀ (n k : Nat), k + n ≤ 255 →
      counterCalls n ⟨p, [k], s, w, le, false⟩ = some ⟨p, [k + n], s, w, le, false⟩ := by
  intro n
  induction n with
  | zero => intro k _; simp [counterCalls]
  | succ n ih =>
    intro k h
    have h256 : k + 1 < 256 := by omega
    have hmod : (k + 1) % 256 = k + 1 := Nat.mod_eq_of_lt h256
    have hdiv : (k + 1) / 256 = 0 := Nat.div_eq_of_lt h256
    have hinc : Counter.increment ⟨p, [k], s, w, le, false⟩ =
        ⟨p, [k + 1], s, w, le, false⟩ := by
      cases le <;> simp [Counter.increment, incFrom, hmod, hdiv]
    rw [counterCalls_succ_of_ok n _ (by simp), hinc, ih (k + 1) (by omega)]
    have hkn : k + 1 + n = k + (n + 1) := by omega
    rw [hkn]

/-- C2 counterexample: for the concrete one-byte counter starting at 0 with
wraparound forbidden, the 256th `next()` call does not fail — the first 256
calls all succeed (the overflow error is only raised on the 257th call). -/
theorem counter_256th_call_succeeds :
    (counterCalls 256 ⟨[], [0], [], false, true, false⟩).isSome = true := by
  decide

/-- C2 (amended): from value 0 with one byte, calls 1..256 all succeed;
after the 255th call the stored buffer is `prefix ++ [0xFF] ++ suffix`;
after the 256th call the value has wrapped to 0 with the carry flag set, so
with `allow_wraparound = false` the 257th call fails with the overflow
error, while with `allow_wraparound = true` the 257th call succeeds and
yields the envelope of the wrapped value 0. -/
theorem counter_wrap_schedule (p s : List Nat) (le : Bool) :
    counterCalls 255 ⟨p, [0], s, false, le, false⟩ =
      some ⟨p, [255], s, false, le, false⟩ ∧
    counterCalls 256 ⟨p, [0], s, false, le, false⟩ =
      some ⟨p, [0], s, false, le, true⟩ ∧
    counterCalls 257 ⟨p, [0], s, false, le, false⟩ = none ∧
    counterCalls 256 ⟨p, [0], s, true, le, false⟩ =
      some ⟨p, [0], s, true, le, true⟩ ∧
    counterCall ⟨p, [0], s, true, le, true⟩ =
      some (p ++ [0] ++ s, ⟨p, [1], s, true, le, false⟩) := by
  have hwrap : ∀ w : Bool, Counter.increment ⟨p, [255], s, w, le, false⟩ =
      ⟨p, [0], s, w, le, true⟩ := by
    intro w
    cases le <;> simp [Counter.increment, incFrom]
  have h255 : ∀ w : Bool, counterCalls 255 ⟨p, [0], s, w, le, false⟩ =
      some ⟨p, [255], s, w, le, false⟩ := fun w =>
    counter_byte_iterate p s w le 255 0 (by omega)
  have h256 : ∀ w : Bool, counterCalls 256 ⟨p, [0], s, w, le, false⟩ =
      some ⟨p, [0], s, w, le, true⟩ := by
    intro w
    have hadd := counterCalls_add 255 1 ⟨p, [0], s, w, le, false⟩
    rw [h255 w] at hadd
    rw [show (256 : Nat) = 255 + 1 from rfl, hadd]
    simp only [Option.some_bind]
    rw [counterCalls_succ_of_ok 0 _ (by simp), hwrap w]
    simp [counterCalls]
  refine ⟨h255 false, h256 false, ?_, h256 true, ?_⟩
  · have hadd := counterCalls_add 256 1 ⟨p, [0], s, false, le, false⟩
    rw [h256 false] at hadd
    rw [show (257 : Nat) = 256 + 1 from rfl, hadd]
    simp only [Option.some_bind]
    rw [counterCalls]
    simp [counterCall]
  · have hinc0 : Counter.increment ⟨p, [0], s, true, le, true⟩ =
        ⟨p, [1], s, true, le, false⟩ := by
      cases le <;> simp [Counter.increment, incFrom]
    simp [counterCall, hinc0]

/-
  ===========  Claim C10: PGP never writes old_cipher  ===========
-/

theorem encrypt_preserves_oldCipher_mode (P : Prim) (e : Engine) (s : List Nat) :
    (ALG_Encrypt P e s).2.oldCipher = e.oldCipher ∧ (ALG_Encrypt P e s).2.mode = e.mode := by
  simp only [ALG_Encrypt]
  split_ifs <;> first
    | simp
    | (cases hm : e.mode <;> simp [hm])

theorem decrypt_pgp_preserves_oldCipher_mode (P : Prim) (e : Engine) (s : List Nat)
    (hm : e.mode = Mode.PGP) :
    (ALG_Decrypt P e s).2.oldCipher = e.oldCipher ∧ (ALG_Decrypt P e s).2.mode = e.mode := by
  simp only [ALG_Decrypt, hm]
  split_ifs <;> simp_all

theorem sync_preserves_oldCipher_mode (P : Prim) (e : Engine) :
    (ALG_Sync P e).2.oldCipher = e.oldCipher ∧ (ALG_Sync P e).2.mode = e.mode := by
  simp only [ALG_Sync]
  split_ifs <;> simp

theorem runOps_pgp_oldCipher (P : Prim) :
    ∀ (ops : List EngineOp) (e : Engine), e.mode = Mode.PGP →
      (runOps P e ops).oldCipher = e.oldCipher := by
  intro ops
  induction ops with
  | nil => intro e _; rfl
  | cons op rest ih =>
    intro e hm
    cases op with
    | encOp s =>
      have h1 := encrypt_preserves_oldCipher_mode P e s
      simp only [runOps]
      rw [ih _ (by rw [h1.2, hm]), h1.1]
    | decOp s =>
      have h1 := decrypt_pgp_preserves_oldCipher_mode P e s hm
      simp only [runOps]
      rw [ih _ (by rw [h1.2, hm]), h1.1]
    | syncOp =>
      have h1 := sync_preserves_oldCipher_mode P e
      simp only [runOps]
      rw [ih _ (by rw [h1.2, hm]), h1.1]

/-- C10: on a freshly constructed PGP engine, no sequence of encrypt,
decrypt, and sync calls ever writes the `oldCipher` buffer: after any such
sequence it still holds its construction-time value, the all-zero block
(so every PGP keystream refill encrypts that same constant block). -/
theorem pgp_oldCipher_never_written (P : Prim) (iv : List Nat) (seg : Nat)
    (src : CtrSource) (ops : List EngineOp) :
    (runOps P (ALGnew P Mode.PGP iv seg src) ops).oldCipher =
      List.replicate P.blockSize 0 := by
  rw [runOps_pgp_oldCipher P ops (ALGnew P Mode.PGP iv seg src) rfl]
  rfl

/-
  ===========  Claim C7: length-error characterization  ===========
-/

theorem ctrRefill_error_shape (B : Nat) (src : CtrSource) (er : Err)
    (h : (ctrRefill B src).1 = .error er) :
    er = Err.overflow ∨ er = Err.ctrType ∨ er = Err.sysError := by
  cases src with
  | noCounter =>
    simp [ctrRefill] at h
    simp [← h]
  | shortcut c =>
    simp only [ctrRefill] at h
    split at h
    · simp at h
      simp [← h]
    · split at h <;> simp at h <;> simp [← h]
  | callable g i =>
    simp only [ctrRefill] at h
    cases hg : g i with
    | none =>
      rw [hg] at h
      simp at h
      simp [← h]
    | some l =>
      rw [hg] at h
      by_cases hl : l.length = B
      · simp [ctrRefill, hl] at h
      · simp [ctrRefill, hl] at h
        simp [← h]

theorem ctrEncChunks_error_shape (P : Prim) (er : Err) :
    ∀ (L : List (List Nat)) (iv : List Nat) (src : CtrSource),
      (ctrEncChunks P iv src L).1 = .error er →
      er = Err.overflow ∨ er = Err.ctrType ∨ er = Err.sysError := by
  intro L
  induction L with
  | nil => intro iv src h; simp [ctrEncChunks] at h
  | cons c rest ih =>
    intro iv src h
    cases rest with
    | nil => simp [ctrEncChunks] at h
    | cons c' rest' =>
      rw [ctrEncChunks] at h
      cases href : ctrRefill P.blockSize src with
      | mk res src' =>
        rw [href] at h
        cases res with
        | error er2 =>
          simp at h
          have hsh := ctrRefill_error_shape P.blockSize src er2 (by rw [href])
          subst h
          exact hsh
        | ok k =>
          simp only at h
          cases hr : (ctrEncChunks P (P.enc k) src' (c' :: rest')).1 with
          | ok o => rw [hr] at h; simp at h
          | error er3 =>
            rw [hr] at h
            simp at h
            subst h
            exact ih (P.enc k) src' hr

theorem ctrEncLoop_error_shape (P : Prim) (iv : List Nat) (cnt : Nat) (src : CtrSource)
    (s : List Nat) (er : Err) (h : (ctrEncLoop P iv cnt src s).1 = .error er) :
    er = Err.overflow ∨ er = Err.ctrType ∨ er = Err.sysError := by
  rw [ctrEncLoop] at h
  split at h
  · simp at h
  · cases href : ctrRefill P.blockSize src with
    | mk res src' =>
      rw [href] at h
      cases res with
      | error er2 =>
        simp at h
        have hsh := ctrRefill_error_shape P.blockSize src er2 (by rw [href])
        subst h
        exact hsh
      | ok k =>
        simp only at h
        cases hr : (ctrEncChunks P (P.enc k) src'
            (chunks P.blockSize (s.drop (P.blockSize - cnt)))).1 with
        | ok o => rw [hr] at h; simp at h
        | error er3 =>
          rw [hr] at h
          simp at h
          subst h
          exact ctrEncChunks_error_shape P er3 _ (P.enc k) src' hr

/-- C7: an encrypt call, and a decrypt call on a non-PRF-only engine, is
rejected with the length error exactly when the input length is not a
multiple of `BLOCK_SIZE` in modes ECB, CBC and OFB, or not a multiple of
`segment_size/8` in mode CFB; in modes PGP and CTR no input length is
rejected. -/
theorem length_error_characterization (P : Prim) (e : Engine) (s : List Nat)
    (hp : e.prf_mode = false) :
    ((ALG_Encrypt P e s).1 = .error .lengthError ↔
      (((e.mode = Mode.ECB ∨ e.mode = Mode.CBC ∨ e.mode = Mode.OFB) ∧
          s.length % P.blockSize ≠ 0) ∨
        (e.mode = Mode.CFB ∧ s.length % (e.segment_size / 8) ≠ 0))) ∧
    ((ALG_Decrypt P e s).1 = .error .lengthError ↔
      (((e.mode = Mode.ECB ∨ e.mode = Mode.CBC ∨ e.mode = Mode.OFB) ∧
          s.length % P.blockSize ≠ 0) ∨
        (e.mode = Mode.CFB ∧ s.length % (e.segment_size / 8) ≠ 0))) := by
  have henc : (ALG_Encrypt P e s).1 = .error .lengthError ↔
      (((e.mode = Mode.ECB ∨ e.mode = Mode.CBC ∨ e.mode = Mode.OFB) ∧
          s.length % P.blockSize ≠ 0) ∨
        (e.mode = Mode.CFB ∧ s.length % (e.segment_size / 8) ≠ 0)) := by
    by_cases h0 : s.length = 0
    · simp [ALG_Encrypt, h0]
    · by_cases h1 : s.length % P.blockSize ≠ 0 ∧ e.mode ≠ Mode.CFB ∧
          e.mode ≠ Mode.PGP ∧ e.mode ≠ Mode.CTR
      · have hmode : e.mode = Mode.ECB ∨ e.mode = Mode.CBC ∨ e.mode = Mode.OFB := by
          rcases h1 with ⟨-, hc, hpg, hct⟩
          cases hm : e.mode <;> simp_all
        simp only [ALG_Encrypt, if_neg h0, if_pos h1]
        simp [hmode, h1.1]
      · by_cases h2 : e.mode = Mode.CFB ∧ s.length % (e.segment_size / 8) ≠ 0
        · simp only [ALG_Encrypt, if_neg h0, if_neg h1, if_pos h2]
          simp [h2.1, h2.2]
        · constructor
          · intro herr
            exfalso
            simp only [ALG_Encrypt, if_neg h0, if_neg h1, if_neg h2] at herr
            cases hm : e.mode <;> rw [hm] at herr <;> simp at herr
            rcases ctrEncLoop_error_shape P e.IV e.count e.ctr s _ herr with h | h | h <;>
              simp at h
          · intro hbad
            exfalso
            rcases hbad with ⟨hmode, hmod⟩ | ⟨hmode, hmod⟩
            · exact h1 ⟨hmod, by rcases hmode with h | h | h <;> simp [h]⟩
            · exact h2 ⟨hmode, hmod⟩
  refine ⟨henc, ?_⟩
  by_cases hm : e.mode = Mode.CTR
  · rw [show (ALG_Decrypt P e s).1 = (ALG_Encrypt P e s).1 by simp [ALG_Decrypt, hp, hm]]
    exact henc
  · by_cases h0 : s.length = 0
    · simp [ALG_Decrypt, hp, hm, h0]
    · by_cases h1 : s.length % P.blockSize ≠ 0 ∧ e.mode ≠ Mode.CFB ∧ e.mode ≠ Mode.PGP
      · have hmode : e.mode = Mode.ECB ∨ e.mode = Mode.CBC ∨ e.mode = Mode.OFB := by
          rcases h1 with ⟨-, hc, hpg⟩
          cases hmm : e.mode <;> simp_all
        simp only [ALG_Decrypt, hp, Bool.false_eq_true, if_false, if_neg hm, if_neg h0,
          if_pos h1]
        simp [hmode, h1.1]
      · by_cases h2 : e.mode = Mode.CFB ∧ s.length % (e.segment_size / 8) ≠ 0
        · simp only [ALG_Decrypt, hp, Bool.false_eq_true, if_false, if_neg hm, if_neg h0,
            if_neg h1, if_pos h2]
          simp [h2.1, h2.2]
        · constructor
          · intro herr
            exfalso
            simp only [ALG_Decrypt, hp, Bool.false_eq_true, if_false, if_neg hm, if_neg h0,
              if_neg h1, if_neg h2] at herr
            cases hmm : e.mode <;> rw [hmm] at herr <;> simp at herr
          · intro hbad
            rcases hbad with ⟨hmode, hmod⟩ | ⟨hmode, hmod⟩
            · exact absurd ⟨hmod, by rcases hmode with h | h | h <;> simp [h]⟩ h1
            · exact absurd ⟨hmode, hmod⟩ h2

/-- Witness for C7: the characterization instantiated at an 8-byte-block
ECB engine with a 3-byte input (which the code rejects with the length
error, and the right-hand side of the iff indeed holds there). -/
theorem length_error_characterization_witness :
    ((ALG_Encrypt P8 (ALGnew P8 Mode.ECB [] 0 CtrSource.noCounter) [1, 2, 3]).1 =
        .error .lengthError ↔
      (((Mode.ECB = Mode.ECB ∨ Mode.ECB = Mode.CBC ∨ Mode.ECB = Mode.OFB) ∧
          [1, 2, 3].length % 8 ≠ 0) ∨
        (Mode.ECB = Mode.CFB ∧ [1, 2, 3].length % (0 / 8) ≠ 0))) ∧
    ((ALG_Decrypt P8 (ALGnew P8 Mode.ECB [] 0 CtrSource.noCounter) [1, 2, 3]).1 =
        .error .lengthError ↔
      (((Mode.ECB = Mode.ECB ∨ Mode.ECB = Mode.CBC ∨ Mode.ECB = Mode.OFB) ∧
          [1, 2, 3].length % 8 ≠ 0) ∨
        (Mode.ECB = Mode.CFB ∧ [1, 2, 3].length % (0 / 8) ≠ 0))) :=
  length_error_characterization P8 (ALGnew P8 Mode.ECB [] 0 CtrSource.noCounter) [1, 2, 3] rfl

/-
  ===========  Claim C3: all-or-nothing state mutation on rejected calls  ===========
-/

theorem encrypt_error_shape (P : Prim) (e : Engine) (s : List Nat) (er : Err)
    (h : (ALG_Encrypt P e s).1 = .error er) :
    er = Err.lengthError ∨ er = Err.overflow ∨ er = Err.ctrType ∨ er = Err.sysError := by
  by_cases h0 : s.length = 0
  · simp [ALG_Encrypt, h0] at h
  · by_cases h1 : s.length % P.blockSize ≠ 0 ∧ e.mode ≠ Mode.CFB ∧
        e.mode ≠ Mode.PGP ∧ e.mode ≠ Mode.CTR
    · simp only [ALG_Encrypt, if_neg h0, if_pos h1] at h
      simp at h
      simp [← h]
    · by_cases h2 : e.mode = Mode.CFB ∧ s.length % (e.segment_size / 8) ≠ 0
      · simp only [ALG_Encrypt, if_neg h0, if_neg h1, if_pos h2] at h
        simp at h
        simp [← h]
      · simp only [ALG_Encrypt, if_neg h0, if_neg h1, if_neg h2] at h
        cases hm : e.mode <;> rw [hm] at h <;> simp at h
        exact Or.inr (ctrEncLoop_error_shape P e.IV e.count e.ctr s er h)

/-- C3 counterexample: a CTR engine mid-keystream-block (`count = 4`,
reached by a successful call) whose counter has wrapped: the next encrypt
call is rejected with the overflow error, yet its `count` field has been
mutated from 4 to 8 by the failed call. -/
theorem ctr_overflow_mutates_count :
    (ALG_Encrypt P8 ctrE1 (List.replicate 10 0)).1 = .error .overflow ∧
      ctrE1.count = 4 ∧ (ALG_Encrypt P8 ctrE1 (List.replicate 10 0)).2.count = 8 := by
  refine ⟨by decide, by decide, by decide⟩

/-- C3 (amended: rejections that are detected before any processing —
invalid input length, and decrypt on a PRF-only engine — leave `iv`,
`old_cipher` and `count` exactly as they were; the CTR counter-related
rejections can instead fire after part of the keystream block was already
consumed and leave `iv`/`count` advanced, though no output is returned):
the length-error and PRF-error rejections return the engine unchanged. -/
theorem rejected_call_state (P : Prim) (e : Engine) (s : List Nat) :
    ((ALG_Encrypt P e s).1 = .error .lengthError → (ALG_Encrypt P e s).2 = e) ∧
    ((ALG_Decrypt P e s).1 = .error .lengthError → (ALG_Decrypt P e s).2 = e) ∧
    ((ALG_Decrypt P e s).1 = .error .prfDisabled → (ALG_Decrypt P e s).2 = e) := by
  have henc : (ALG_Encrypt P e s).1 = .error .lengthError → (ALG_Encrypt P e s).2 = e := by
    intro herr
    by_cases h0 : s.length = 0
    · simp [ALG_Encrypt, h0]
    · by_cases h1 : s.length % P.blockSize ≠ 0 ∧ e.mode ≠ Mode.CFB ∧
          e.mode ≠ Mode.PGP ∧ e.mode ≠ Mode.CTR
      · rw [ALG_Encrypt, if_neg h0, if_pos h1]
      · by_cases h2 : e.mode = Mode.CFB ∧ s.length % (e.segment_size / 8) ≠ 0
        · rw [ALG_Encrypt, if_neg h0, if_neg h1, if_pos h2]
        · exfalso
          simp only [ALG_Encrypt, if_neg h0, if_neg h1, if_neg h2] at herr
          cases hm : e.mode <;> rw [hm] at herr <;> simp at herr
          rcases ctrEncLoop_error_shape P e.IV e.count e.ctr s _ herr with h | h | h <;>
            simp at h
  refine ⟨henc, ?_, ?_⟩
  · intro herr
    by_cases hp : e.prf_mode = true
    · simp [ALG_Decrypt, hp]
    · by_cases hm : e.mode = Mode.CTR
      · have hd : ALG_Decrypt P e s = ALG_Encrypt P e s := by
          simp [ALG_Decrypt, hp, hm]
        rw [hd] at herr ⊢
        exact henc herr
      · by_cases h0 : s.length = 0
        · simp [ALG_Decrypt, hp, hm, h0]
        · by_cases h1 : s.length % P.blockSize ≠ 0 ∧ e.mode ≠ Mode.CFB ∧ e.mode ≠ Mode.PGP
          · rw [ALG_Decrypt, if_neg hp, if_neg hm, if_neg h0, if_pos h1]
          · by_cases h2 : e.mode = Mode.CFB ∧ s.length % (e.segment_size / 8) ≠ 0
            · rw [ALG_Decrypt, if_neg hp, if_neg hm, if_neg h0, if_neg h1, if_pos h2]
            · exfalso
              simp only [ALG_Decrypt, hp, Bool.false_eq_true, if_false, if_neg hm,
                if_neg h0, if_neg h1, if_neg h2] at herr
              cases hmm : e.mode <;> rw [hmm] at herr <;> simp at herr
  · intro herr
    by_cases hp : e.prf_mode = true
    · simp [ALG_Decrypt, hp]
    · exfalso
      by_cases hm : e.mode = Mode.CTR
      · have hd : ALG_Decrypt P e s = ALG_Encrypt P e s := by
          simp [ALG_Decrypt, hp, hm]
        rw [hd] at herr
        rcases encrypt_error_shape P e s _ herr with h | h | h | h <;> simp at h
      · by_cases h0 : s.length = 0
        · simp [ALG_Decrypt, hp, hm, h0] at herr
        · by_cases h1 : s.length % P.blockSize ≠ 0 ∧ e.mode ≠ Mode.CFB ∧ e.mode ≠ Mode.PGP
          · rw [ALG_Decrypt, if_neg hp, if_neg hm, if_neg h0, if_pos h1] at herr
            simp at herr
          · by_cases h2 : e.mode = Mode.CFB ∧ s.length % (e.segment_size / 8) ≠ 0
            · rw [ALG_Decrypt, if_neg hp, if_neg hm, if_neg h0, if_neg h1, if_pos h2] at herr
              simp at herr
            · simp only [ALG_Decrypt, hp, Bool.false_eq_true, if_false, if_neg hm,
                if_neg h0, if_neg h1, if_neg h2] at herr
              cases hmm : e.mode <;> rw [hmm] at herr <;> simp at herr

/-- Witness for the amended C3: a 3-byte input into an 8-byte-block ECB
engine is rejected with the length error on both directions, and the engine
comes back unchanged. -/
theorem rejected_call_state_witness :
    (ALG_Encrypt P8 (ALGnew P8 Mode.ECB [] 0 CtrSource.noCounter) [1, 2, 3]).2 =
      ALGnew P8 Mode.ECB [] 0 CtrSource.noCounter ∧
    (ALG_Decrypt P8 (ALGnew P8 Mode.ECB [] 0 CtrSource.noCounter) [1, 2, 3]).2 =
      ALGnew P8 Mode.ECB [] 0 CtrSource.noCounter :=
  ⟨(rejected_call_state P8 (ALGnew P8 Mode.ECB [] 0 CtrSource.noCounter) [1, 2, 3]).1 rfl,
   (rejected_call_state P8 (ALGnew P8 Mode.ECB [] 0 CtrSource.noCounter) [1, 2, 3]).2.1 rfl⟩

/-
  ===========  Claim C4: PGP chunked encryption with resync  ===========
-/

/-- C4: the code does not satisfy the claimed property. Encrypting 16 zero
bytes on a fresh PGP engine over `P8` in one call gives a different
ciphertext than encrypting 5 bytes, calling `sync()`, and encrypting the
remaining 11 bytes on an identically configured fresh engine: the PGP paths
never store the previous ciphertext block into `oldCipher`, so `sync()`
refills the head of `IV` from the all-zero construction-time cache instead
of the preceding ciphertext, and every keystream refill restarts from
`encrypt_block(0)`. -/
theorem pgp_resync_chunked_differs : pgpChunked ≠ pgpOneShot := by
  decide

/-
  ===========  Claim C1: encrypt-then-decrypt roundtrip, all modes  ===========
-/

theorem chunks_singleton (n : Nat) (l : List Nat) (hn : 0 < n) (hl : l ≠ [])
    (hlen : l.length ≤ n) : chunks n l = [l] := by
  rw [chunks_eq_cons n l hn hl, List.take_of_length_le hlen,
    List.drop_eq_nil_of_le hlen, chunks_nil]

theorem chunks_append_block (n : Nat) (hn : 0 < n) (a l : List Nat) (ha : a.length = n)
    (hl : l ≠ []) : chunks n (a ++ l) = a :: chunks n l := by
  have hane : a ≠ [] := by
    intro h
    rw [h] at ha
    simp at ha
    omega
  have hne : a ++ l ≠ [] := by simp [hane]
  rw [chunks_eq_cons n (a ++ l) hn hne,
    show (a ++ l).take n = a by rw [← ha]; exact List.take_left a l,
    show (a ++ l).drop n = l by rw [← ha]; exact List.drop_left a l]

theorem flatten_length_const (B : Nat) : ∀ (L : List (List Nat)),
    (∀ x ∈ L, x.length = B) → L.flatten.length = L.length * B := by
  intro L
  induction L with
  | nil => intro _; simp
  | cons c t ih =>
    intro h
    have hc : c.length = B := h c (by simp)
    simp only [List.flatten_cons, List.length_append, List.length_cons,
      ih (fun x hx => h x (by simp [hx])), hc]
    ring

theorem chunks_dvd_flatten_length (P : Prim) (n : Nat) (hn : 0 < n) (l : List Nat)
    (hd : n ∣ l.length) (F : List Nat → List Nat)
    (hF : ∀ x ∈ chunks n l, (F x).length = n) :
    (((chunks n l).map F).flatten).length = l.length := by
  rw [flatten_length_const n (((chunks n l)).map F)
      (by intro x hx; rcases List.mem_map.mp hx with ⟨y, hy, rfl⟩; exact hF y hy),
    List.length_map]
  have h1 : (chunks n l).flatten.length = (chunks n l).length * n :=
    flatten_length_const n (chunks n l) (chunks_length_mem n hn l hd)
  rw [flatten_chunks n hn l] at h1
  omega

theorem ecb_chunks_roundtrip (P : Prim)
    (hD : ∀ b : List Nat, b.length = P.blockSize → P.dec (P.enc b) = b) :
    ∀ (L : List (List Nat)), (∀ x ∈ L, x.length = P.blockSize) →
      ecbDecrypt P (ecbEncrypt P L) = L := by
  intro L
  induction L with
  | nil => intro _; rfl
  | cons c t ih =>
    intro h
    simp only [ecbEncrypt, ecbDecrypt, List.map_cons, List.map_map] at ih ⊢
    rw [hD c (h c (by simp))]
    congr 1
    simpa [ecbEncrypt, ecbDecrypt] using ih (fun x hx => h x (by simp [hx]))

theorem cbc_chunks_roundtrip (P : Prim)
    (hE : ∀ b : List Nat, b.length = P.blockSize → (P.enc b).length = P.blockSize)
    (hD : ∀ b : List Nat, b.length = P.blockSize → P.dec (P.enc b) = b) :
    ∀ (L : List (List Nat)) (iv oldC : List Nat), iv.length = P.blockSize →
      (∀ x ∈ L, x.length = P.blockSize) →
      (cbcDecrypt P (cbcEncrypt P L iv).1 iv oldC).1 = L := by
  intro L
  induction L with
  | nil => intro iv oldC _ _; rfl
  | cons c t ih =>
    intro iv oldC hiv h
    have hc : c.length = P.blockSize := h c (by simp)
    have hxlen : (List.zipWith Nat.xor c iv).length = P.blockSize := by
      rw [List.length_zipWith, hc, hiv]
      simp
    simp only [cbcEncrypt, cbcDecrypt]
    rw [hD (List.zipWith Nat.xor c iv) hxlen,
      zipWith_xor_cancel_right c iv (by omega)]
    simp only [List.cons.injEq, true_and]
    exact ih (P.enc (List.zipWith Nat.xor c iv)) iv (hE _ hxlen)
      (fun x hx => h x (by simp [hx]))

theorem cbcEncrypt_chunk_lengths (P : Prim)
    (hE : ∀ b : List Nat, b.length = P.blockSize → (P.enc b).length = P.blockSize) :
    ∀ (L : List (List Nat)) (iv : List Nat), iv.length = P.blockSize →
      (∀ x ∈ L, x.length = P.blockSize) →
      ∀ y ∈ (cbcEncrypt P L iv).1, y.length = P.blockSize := by
  intro L
  induction L with
  | nil => intro iv _ _ y hy; simp [cbcEncrypt] at hy
  | cons c t ih =>
    intro iv hiv h y hy
    have hxlen : (List.zipWith Nat.xor c iv).length = P.blockSize := by
      rw [List.length_zipWith, h c (by simp), hiv]
      simp
    simp only [cbcEncrypt, List.mem_cons] at hy
    rcases hy with rfl | hy
    · exact hE _ hxlen
    · exact ih (P.enc (List.zipWith Nat.xor c iv)) (hE _ hxlen)
        (fun x hx => h x (by simp [hx])) y hy

theorem ofb_chunks_roundtrip (P : Prim)
    (hE : ∀ b : List Nat, b.length = P.blockSize → (P.enc b).length = P.blockSize) :
    ∀ (L : List (List Nat)) (iv : List Nat), iv.length = P.blockSize →
      (∀ x ∈ L, x.length = P.blockSize) →
      (ofbDecrypt P (ofbEncrypt P L iv).1 iv).1 = L := by
  intro L
  induction L with
  | nil => intro iv _ _; rfl
  | cons c t ih =>
    intro iv hiv h
    have htemp : (P.enc iv).length = P.blockSize := hE iv hiv
    simp only [ofbEncrypt, ofbDecrypt]
    rw [zipWith_xor_cancel_right c (P.enc iv) (by rw [htemp, h c (by simp)])]
    simp only [List.cons.injEq, true_and]
    exact ih (P.enc iv) htemp (fun x hx => h x (by simp [hx]))

theorem ofbEncrypt_chunk_lengths (P : Prim)
    (hE : ∀ b : List Nat, b.length = P.blockSize → (P.enc b).length = P.blockSize) :
    ∀ (L : List (List Nat)) (iv : List Nat), iv.length = P.blockSize →
      (∀ x ∈ L, x.length = P.blockSize) →
      ∀ y ∈ (ofbEncrypt P L iv).1, y.length = P.blockSize := by
  intro L
  induction L with
  | nil => intro iv _ _ y hy; simp [ofbEncrypt] at hy
  | cons c t ih =>
    intro iv hiv h y hy
    have htemp : (P.enc iv).length = P.blockSize := hE iv hiv
    simp only [ofbEncrypt, List.mem_cons] at hy
    rcases hy with rfl | hy
    · rw [List.length_zipWith, h c (by simp), htemp]
      simp
    · exact ih (P.enc iv) htemp (fun x hx => h x (by simp [hx])) y hy

theorem cfb_chunks_roundtrip (P : Prim)
    (hE : ∀ b : List Nat, b.length = P.blockSize → (P.enc b).length = P.blockSize)
    (seg : Nat) (hsz : seg / 8 ≤ P.blockSize) :
    ∀ (L : List (List Nat)) (iv : List Nat), iv.length = P.blockSize →
      (∀ x ∈ L, x.length = seg / 8) →
      (cfbDecrypt P seg (cfbEncrypt P seg L iv).1 iv).1 = L := by
  intro L
  induction L with
  | nil => intro iv _ _; rfl
  | cons c t ih =>
    intro iv hiv h
    have hc : c.length = seg / 8 := h c (by simp)
    have htemp : (P.enc iv).length = P.blockSize := hE iv hiv
    have hout : (List.zipWith Nat.xor c (P.enc iv)).length = seg / 8 := by
      rw [List.length_zipWith, hc, htemp]
      omega
    have hiv' : (if seg = P.blockSize * 8 then List.zipWith Nat.xor c (P.enc iv)
        else iv.drop (seg / 8) ++ List.zipWith Nat.xor c (P.enc iv)).length =
        P.blockSize := by
      by_cases h8 : seg = P.blockSize * 8
      · rw [if_pos h8, hout, h8, Nat.mul_div_cancel]
        omega
      · rw [if_neg h8]
        simp only [List.length_append, List.length_drop, hout, hiv]
        omega
    simp only [cfbEncrypt, cfbDecrypt]
    rw [zipWith_xor_cancel_right c (P.enc iv) (by omega)]
    simp only [List.cons.injEq, true_and]
    exact ih _ hiv' (fun x hx => h x (by simp [hx]))

theorem cfbEncrypt_chunk_lengths (P : Prim)
    (hE : ∀ b : List Nat, b.length = P.blockSize → (P.enc b).length = P.blockSize)
    (seg : Nat) (hsz : seg / 8 ≤ P.blockSize) :
    ∀ (L : List (List Nat)) (iv : List Nat), iv.length = P.blockSize →
      (∀ x ∈ L, x.length = seg / 8) →
      ∀ y ∈ (cfbEncrypt P seg L iv).1, y.length = seg / 8 := by
  intro L
  induction L with
  | nil => intro iv _ _ y hy; simp [cfbEncrypt] at hy
  | cons c t ih =>
    intro iv hiv h y hy
    have hc : c.length = seg / 8 := h c (by simp)
    have htemp : (P.enc iv).length = P.blockSize := hE iv hiv
    have hout : (List.zipWith Nat.xor c (P.enc iv)).length = seg / 8 := by
      rw [List.length_zipWith, hc, htemp]
      omega
    have hiv' : (if seg = P.blockSize * 8 then List.zipWith Nat.xor c (P.enc iv)
        else iv.drop (seg / 8) ++ List.zipWith Nat.xor c (P.enc iv)).length =
        P.blockSize := by
      by_cases h8 : seg = P.blockSize * 8
      · rw [if_pos h8, hout, h8, Nat.mul_div_cancel]
        omega
      · rw [if_neg h8]
        simp only [List.length_append, List.length_drop, hout, hiv]
        omega
    simp only [cfbEncrypt, List.mem_cons] at hy
    rcases hy with rfl | hy
    · exact hout
    · exact ih _ hiv' (fun x hx => h x (by simp [hx])) y hy

theorem pgp_blocks_roundtrip (P : Prim)
    (hE : ∀ b : List Nat, b.length = P.blockSize → (P.enc b).length = P.blockSize)
    (oldC : List Nat) (hold : oldC.length = P.blockSize) :
    ∀ (r : List Nat), r ≠ [] →
      (pgpEncChunks P oldC (chunks P.blockSize r)).1.length = r.length ∧
      (pgpDecChunks P oldC
        (chunks P.blockSize ((pgpEncChunks P oldC (chunks P.blockSize r)).1))).1 = r := by
  intro r hr
  have hB := P.blockSize_pos
  have hrlen : 0 < r.length := by
    cases r with
    | nil => exact absurd rfl hr
    | cons a t => simp
  have hivE : (P.enc oldC).length = P.blockSize := hE oldC hold
  by_cases hsm : r.length ≤ P.blockSize
  · rw [chunks_singleton P.blockSize r hB hr hsm]
    simp only [pgpEncChunks]
    have hout : (List.zipWith Nat.xor (P.enc oldC) r).length = r.length := by
      rw [List.length_zipWith, hivE]
      omega
    refine ⟨hout, ?_⟩
    have houtne : List.zipWith Nat.xor (P.enc oldC) r ≠ [] := by
      intro h
      rw [h] at hout
      simp at hout
      omega
    rw [chunks_singleton P.blockSize _ hB houtne (by omega)]
    simp only [pgpDecChunks]
    exact zipWith_xor_cancel_left r (P.enc oldC) (by omega)
  · have hdne : r.drop P.blockSize ≠ [] := by
      intro h
      have := congrArg List.length h
      simp at this
      omega
    have ih := pgp_blocks_roundtrip P hE oldC hold (r.drop P.blockSize) hdne
    obtain ⟨c2, rest2, hcons⟩ :
        ∃ c2 rest2, chunks P.blockSize (r.drop P.blockSize) = c2 :: rest2 := by
      rw [chunks_eq_cons P.blockSize _ hB hdne]
      exact ⟨_, _, rfl⟩
    have hout1 : (List.zipWith Nat.xor (P.enc oldC) (r.take P.blockSize)).length =
        P.blockSize := by
      rw [List.length_zipWith, hivE, List.length_take]
      omega
    have hstep : (pgpEncChunks P oldC (chunks P.blockSize r)).1 =
        List.zipWith Nat.xor (P.enc oldC) (r.take P.blockSize) ++
          (pgpEncChunks P oldC (chunks P.blockSize (r.drop P.blockSize))).1 := by
      rw [chunks_eq_cons P.blockSize r hB hr, hcons]
      simp only [pgpEncChunks]
    have hlen : (pgpEncChunks P oldC (chunks P.blockSize r)).1.length = r.length := by
      rw [hstep, List.length_append, hout1, ih.1]
      simp only [List.length_drop]
      omega
    refine ⟨hlen, ?_⟩
    have h2ne : (pgpEncChunks P oldC (chunks P.blockSize (r.drop P.blockSize))).1 ≠ [] := by
      intro h
      have := congrArg List.length h
      rw [ih.1] at this
      simp at this
      omega
    obtain ⟨c3, rest3, hcons3⟩ : ∃ c3 rest3,
        chunks P.blockSize
          (pgpEncChunks P oldC (chunks P.blockSize (r.drop P.blockSize))).1 =
          c3 :: rest3 := by
      rw [chunks_eq_cons P.blockSize _ hB h2ne]
      exact ⟨_, _, rfl⟩
    rw [hstep, chunks_append_block P.blockSize hB _ _ hout1 h2ne, hcons3]
    simp only [pgpDecChunks]
    rw [← hcons3, ih.2,
      zipWith_xor_cancel_left (r.take P.blockSize) (P.enc oldC)
        (by rw [List.length_take, hivE]; omega),
      List.take_append_drop]
termination_by r => r.length
decreasing_by
  simp only [List.length_drop]
  omega

theorem pgp_roundtrip (P : Prim)
    (hE : ∀ b : List Nat, b.length = P.blockSize → (P.enc b).length = P.blockSize)
    (oldC iv : List Nat) (cnt : Nat)
    (hold : oldC.length = P.blockSize) (hiv : iv.length = P.blockSize) (s : List Nat) :
    (pgpDecrypt P oldC iv cnt (pgpEncrypt P oldC iv cnt s).1).1 = s ∧
    (pgpEncrypt P oldC iv cnt s).1.length = s.length := by
  have hB := P.blockSize_pos
  have hdropiv : (iv.drop cnt).length = P.blockSize - cnt := by
    rw [List.length_drop, hiv]
  by_cases hsm : s.length ≤ P.blockSize - cnt
  · have henc1 : (pgpEncrypt P oldC iv cnt s).1 = List.zipWith Nat.xor (iv.drop cnt) s := by
      rw [pgpEncrypt, if_pos hsm]
    have hout : (List.zipWith Nat.xor (iv.drop cnt) s).length = s.length := by
      rw [List.length_zipWith, hdropiv]
      omega
    refine ⟨?_, by rw [henc1, hout]⟩
    rw [henc1, pgpDecrypt, if_pos (by rw [hout]; omega)]
    exact zipWith_xor_cancel_left s (iv.drop cnt) (by omega)
  · have hdne : s.drop (P.blockSize - cnt) ≠ [] := by
      intro h
      have := congrArg List.length h
      simp at this
      omega
    have hblocks := pgp_blocks_roundtrip P hE oldC hold (s.drop (P.blockSize - cnt)) hdne
    have hout1 : (List.zipWith Nat.xor (iv.drop cnt)
        (s.take (P.blockSize - cnt))).length = P.blockSize - cnt := by
      rw [List.length_zipWith, hdropiv, List.length_take]
      omega
    have henc1 : (pgpEncrypt P oldC iv cnt s).1 =
        List.zipWith Nat.xor (iv.drop cnt) (s.take (P.blockSize - cnt)) ++
          (pgpEncChunks P oldC (chunks P.blockSize (s.drop (P.blockSize - cnt)))).1 := by
      rw [pgpEncrypt, if_neg hsm]
    have htotal : (pgpEncrypt P oldC iv cnt s).1.length = s.length := by
      rw [henc1, List.length_append, hout1, hblocks.1]
      simp only [List.length_drop]
      omega
    refine ⟨?_, htotal⟩
    rw [henc1, pgpDecrypt, if_neg (by rw [← henc1, htotal]; omega)]
    simp only [List.take_left' hout1, List.drop_left' hout1, hblocks.2]
    rw [zipWith_xor_cancel_left (s.take (P.blockSize - cnt)) (iv.drop cnt)
        (by rw [List.length_take, hdropiv]; omega),
      List.take_append_drop]

theorem ctrRefill_ok_length (B : Nat) (src : CtrSource) (k : List Nat) (src' : CtrSource)
    (h : ctrRefill B src = (.ok k, src')) : k.length = B := by
  cases src with
  | noCounter => simp [ctrRefill] at h
  | shortcut c =>
    simp only [ctrRefill] at h
    split at h
    · simp at h
    · split at h
      · simp at h
      · rename_i hlen
        simp at h
        rw [← h.1]
        simp only [List.length_append]
        omega
  | callable g i =>
    simp only [ctrRefill] at h
    cases hg : g i with
    | none => rw [hg] at h; simp at h
    | some l =>
      rw [hg] at h
      by_cases hl : l.length = B
      · simp [hl] at h
        rw [← h.1]
        exact hl
      · simp [hl] at h

theorem ctrEncChunks_cons_first (P : Prim) (iv : List Nat) (src : CtrSource)
    (c c' : List Nat) (rest : List (List Nat)) (k : List Nat) (src1 : CtrSource)
    (href : ctrRefill P.blockSize src = (.ok k, src1))
    (o : List Nat) (hrec : (ctrEncChunks P (P.enc k) src1 (c' :: rest)).1 = .ok o) :
    (ctrEncChunks P iv src (c :: c' :: rest)).1 =
      .ok (List.zipWith Nat.xor iv c ++ o) := by
  rw [ctrEncChunks, href]
  simp only [hrec]

theorem ctrEncLoop_refill_first (P : Prim) (iv : List Nat) (cnt : Nat) (src : CtrSource)
    (s : List Nat) (hsm : ¬s.length ≤ P.blockSize - cnt) (k : List Nat)
    (src1 : CtrSource) (href : ctrRefill P.blockSize src = (.ok k, src1))
    (o : List Nat)
    (hrec : (ctrEncChunks P (P.enc k) src1
      (chunks P.blockSize (s.drop (P.blockSize - cnt)))).1 = .ok o) :
    (ctrEncLoop P iv cnt src s).1 =
      .ok (List.zipWith Nat.xor (iv.drop cnt) (s.take (P.blockSize - cnt)) ++ o) := by
  rw [ctrEncLoop, if_neg hsm]
  simp only
  rw [href]
  simp only [hrec]

theorem ctr_chunks_roundtrip (P : Prim)
    (hE : ∀ b : List Nat, b.length = P.blockSize → (P.enc b).length = P.blockSize) :
    ∀ (r : List Nat), r ≠ [] → ∀ (iv : List Nat) (src : CtrSource)
      (o : List Nat) (st : List Nat × Nat × CtrSource),
      iv.length = P.blockSize →
      ctrEncChunks P iv src (chunks P.blockSize r) = (.ok o, st) →
      o.length = r.length ∧
        (ctrEncChunks P iv src (chunks P.blockSize o)).1 = .ok r := by
  intro r hr iv src o st hiv henc
  have hB := P.blockSize_pos
  have hrlen : 0 < r.length := List.length_pos.mpr hr
  by_cases hsm : r.length ≤ P.blockSize
  · rw [chunks_singleton P.blockSize r hB hr hsm] at henc
    simp only [ctrEncChunks] at henc
    have ho : o = List.zipWith Nat.xor iv r := by
      have h1 := congrArg Prod.fst henc
      simp at h1
      exact h1.symm
    have holen : o.length = r.length := by
      rw [ho, List.length_zipWith, hiv]
      omega
    refine ⟨holen, ?_⟩
    have hone : o ≠ [] := by
      intro h
      rw [h] at holen
      simp at holen
      omega
    rw [chunks_singleton P.blockSize o hB hone (by omega)]
    simp only [ctrEncChunks]
    rw [ho, zipWith_xor_cancel_left r iv (by omega)]
  · have hdne : r.drop P.blockSize ≠ [] := by
      intro h
      have := congrArg List.length h
      simp at this
      omega
    obtain ⟨c2, rest2, hcons⟩ : ∃ c2 rest2,
        chunks P.blockSize (r.drop P.blockSize) = c2 :: rest2 := by
      rw [chunks_eq_cons P.blockSize _ hB hdne]
      exact ⟨_, _, rfl⟩
    rw [chunks_eq_cons P.blockSize r hB hr, hcons] at henc
    simp only [ctrEncChunks] at henc
    have htk : (r.take P.blockSize).length = P.blockSize := by
      rw [List.length_take]
      omega
    have hout1 : (List.zipWith Nat.xor iv (r.take P.blockSize)).length = P.blockSize := by
      rw [List.length_zipWith, hiv, htk]
      omega
    cases href : ctrRefill P.blockSize src with
    | mk res src1 =>
      rw [href] at henc
      cases res with
      | error er => simp at henc
      | ok k =>
        simp only at henc
        have hklen : k.length = P.blockSize := ctrRefill_ok_length P.blockSize src k src1 href
        have hk2 : (P.enc k).length = P.blockSize := hE k hklen
        cases hr2 : (ctrEncChunks P (P.enc k) src1 (c2 :: rest2)).1 with
        | error er => rw [hr2] at henc; simp at henc
        | ok o2 =>
          rw [hr2] at henc
          simp at henc
          have hr2full : ctrEncChunks P (P.enc k) src1
              (chunks P.blockSize (r.drop P.blockSize)) =
              (.ok o2, (ctrEncChunks P (P.enc k) src1 (c2 :: rest2)).2) := by
            rw [hcons]
            exact Prod.ext hr2 rfl
          have ih := ctr_chunks_roundtrip P hE (r.drop P.blockSize) hdne (P.enc k) src1
            o2 (ctrEncChunks P (P.enc k) src1 (c2 :: rest2)).2 hk2 hr2full
          have ho : o = List.zipWith Nat.xor iv (r.take P.blockSize) ++ o2 := henc.1.symm
          have ho2len : o2.length = r.length - P.blockSize := by
            rw [ih.1]
            simp
          have holen : o.length = r.length := by
            rw [ho, List.length_append, hout1, ho2len]
            omega
          refine ⟨holen, ?_⟩
          have ho2ne : o2 ≠ [] := by
            intro h
            rw [h] at ho2len
            simp at ho2len
            omega
          obtain ⟨c3, rest3, hcons3⟩ : ∃ c3 rest3,
              chunks P.blockSize o2 = c3 :: rest3 := by
            rw [chunks_eq_cons P.blockSize _ hB ho2ne]
            exact ⟨_, _, rfl⟩
          rw [ho, chunks_append_block P.blockSize hB _ _ hout1 ho2ne, hcons3]
          have hrec : (ctrEncChunks P (P.enc k) src1 (c3 :: rest3)).1 =
              .ok (r.drop P.blockSize) := by
            rw [← hcons3]
            exact ih.2
          rw [ctrEncChunks_cons_first P iv src _ c3 rest3 k src1 href
            (r.drop P.blockSize) hrec,
            zipWith_xor_cancel_left (r.take P.blockSize) iv (by omega),
            List.take_append_drop]
termination_by r => r.length
decreasing_by
  simp only [List.length_drop]
  omega

theorem ctr_loop_roundtrip (P : Prim)
    (hE : ∀ b : List Nat, b.length = P.blockSize → (P.enc b).length = P.blockSize)
    (iv : List Nat) (cnt : Nat) (src : CtrSource) (s o : List Nat)
    (st : List Nat × Nat × CtrSource) (hiv : iv.length = P.blockSize)
    (henc : ctrEncLoop P iv cnt src s = (.ok o, st)) :
    o.length = s.length ∧ (ctrEncLoop P iv cnt src o).1 = .ok s := by
  have hB := P.blockSize_pos
  have hdropiv : (iv.drop cnt).length = P.blockSize - cnt := by
    rw [List.length_drop, hiv]
  by_cases hsm : s.length ≤ P.blockSize - cnt
  · rw [ctrEncLoop, if_pos hsm] at henc
    have ho : o = List.zipWith Nat.xor (iv.drop cnt) s := by
      have h1 := congrArg Prod.fst henc
      simp at h1
      exact h1.symm
    have holen : o.length = s.length := by
      rw [ho, List.length_zipWith, hdropiv]
      omega
    refine ⟨holen, ?_⟩
    rw [ctrEncLoop, if_pos (by omega), ho,
      zipWith_xor_cancel_left s (iv.drop cnt) (by omega)]
  · rw [ctrEncLoop, if_neg hsm] at henc
    simp only at henc
    have hdne : s.drop (P.blockSize - cnt) ≠ [] := by
      intro h
      have := congrArg List.length h
      simp at this
      omega
    have hout1 : (List.zipWith Nat.xor (iv.drop cnt)
        (s.take (P.blockSize - cnt))).length = P.blockSize - cnt := by
      rw [List.length_zipWith, hdropiv, List.length_take]
      omega
    cases href : ctrRefill P.blockSize src with
    | mk res src1 =>
      rw [href] at henc
      cases res with
      | error er => simp at henc
      | ok k =>
        simp only at henc
        have hklen : k.length = P.blockSize := ctrRefill_ok_length P.blockSize src k src1 href
        have hk2 : (P.enc k).length = P.blockSize := hE k hklen
        cases hr2 : (ctrEncChunks P (P.enc k) src1
            (chunks P.blockSize (s.drop (P.blockSize - cnt)))).1 with
        | error er => rw [hr2] at henc; simp at henc
        | ok o2 =>
          rw [hr2] at henc
          simp at henc
          have ih := ctr_chunks_roundtrip P hE (s.drop (P.blockSize - cnt)) hdne
            (P.enc k) src1 o2
            (ctrEncChunks P (P.enc k) src1
              (chunks P.blockSize (s.drop (P.blockSize - cnt)))).2 hk2
            (Prod.ext hr2 rfl)
          have ho : o = List.zipWith Nat.xor (iv.drop cnt)
              (s.take (P.blockSize - cnt)) ++ o2 := henc.1.symm
          have ho2len : o2.length = s.length - (P.blockSize - cnt) := by
            rw [ih.1]
            simp
          have holen : o.length = s.length := by
            rw [ho, List.length_append, hout1, ho2len]
            omega
          refine ⟨holen, ?_⟩
          have hodrop : o.drop (P.blockSize - cnt) = o2 := by
            rw [ho]
            exact List.drop_left' hout1
          have hotake : o.take (P.blockSize - cnt) =
              List.zipWith Nat.xor (iv.drop cnt) (s.take (P.blockSize - cnt)) := by
            rw [ho]
            exact List.take_left' hout1
          have hrec : (ctrEncChunks P (P.enc k) src1
              (chunks P.blockSize (o.drop (P.blockSize - cnt)))).1 =
              .ok (s.drop (P.blockSize - cnt)) := by
            rw [hodrop]
            exact ih.2
          rw [ctrEncLoop_refill_first P iv cnt src o (by omega) k src1 href
            (s.drop (P.blockSize - cnt)) hrec, hotake,
            zipWith_xor_cancel_left (s.take (P.blockSize - cnt)) (iv.drop cnt)
              (by rw [List.length_take, hdropiv]; omega),
            List.take_append_drop]

theorem cbcEncrypt_length (P : Prim) : ∀ (L : List (List Nat)) (iv : List Nat),
    (cbcEncrypt P L iv).1.length = L.length := by
  intro L
  induction L with
  | nil => intro iv; rfl
  | cons c t ih => intro iv; simp [cbcEncrypt, ih]

theorem ofbEncrypt_length (P : Prim) : ∀ (L : List (List Nat)) (iv : List Nat),
    (ofbEncrypt P L iv).1.length = L.length := by
  intro L
  induction L with
  | nil => intro iv; rfl
  | cons c t ih => intro iv; simp [ofbEncrypt, ih]

theorem cfbEncrypt_length (P : Prim) (seg : Nat) : ∀ (L : List (List Nat)) (iv : List Nat),
    (cfbEncrypt P seg L iv).1.length = L.length := by
  intro L
  induction L with
  | nil => intro iv; rfl
  | cons c t ih => intro iv; simp [cfbEncrypt, ih]

theorem chunks_count_flatten (B : Nat) (hB : 0 < B) (l : List Nat) (hd : B ∣ l.length) :
    (chunks B l).length * B = l.length := by
  have h1 := flatten_length_const B (chunks B l) (chunks_length_mem B hB l hd)
  rw [flatten_chunks B hB l] at h1
  omega

theorem ALGnew_IV (P : Prim) (mode : Mode) (iv : List Nat) (seg : Nat) (src : CtrSource)
    (hiv : iv.length = P.blockSize) : (ALGnew P mode iv seg src).IV = iv := by
  simp [ALGnew, hiv]

theorem decrypt_nil_ok (P : Prim) (e : Engine) (hprf : e.prf_mode = false) :
    (ALG_Decrypt P e []).1 = .ok [] := by
  by_cases hm : e.mode = Mode.CTR
  · simp [ALG_Decrypt, hprf, hm, ALG_Encrypt]
  · simp [ALG_Decrypt, hprf, hm]

/-- C1: in every mode, for every input satisfying the mode's length
constraint (the success of `encrypt` forces it), encrypting on one freshly
constructed engine and decrypting the result on a second, identically
configured fresh engine (same IV, segment size and counter starting state)
returns the original plaintext, under the hypotheses that the block
primitive's decryption inverts its encryption on blocks and that encryption
preserves the block length. -/
theorem encrypt_then_decrypt_roundtrip (P : Prim)
    (hE : ∀ b : List Nat, b.length = P.blockSize → (P.enc b).length = P.blockSize)
    (hD : ∀ b : List Nat, b.length = P.blockSize → P.dec (P.enc b) = b)
    (mode : Mode) (iv : List Nat) (seg : Nat) (src : CtrSource)
    (hiv : iv.length = P.blockSize)
    (hseg : mode = Mode.CFB → seg % 8 = 0 ∧ 8 ≤ seg ∧ seg ≤ P.blockSize * 8)
    (p c : List Nat) (e' : Engine)
    (henc : ALG_Encrypt P (ALGnew P mode iv seg src) p = (.ok c, e')) :
    (ALG_Decrypt P (ALGnew P mode iv seg src) c).1 = .ok p := by
  have hB := P.blockSize_pos
  by_cases hp0 : p.length = 0
  · rw [ALG_Encrypt, if_pos hp0] at henc
    have hp : p = [] := List.length_eq_zero.mp hp0
    have hc : c = [] := by
      have h1 := congrArg Prod.fst henc
      simp at h1
      exact h1
    rw [hp, hc]
    exact decrypt_nil_ok P (ALGnew P mode iv seg src) rfl
  · cases mode with
    | ECB =>
      by_cases hlen : p.length % P.blockSize = 0
      · have hdvd : P.blockSize ∣ p.length := Nat.dvd_of_mod_eq_zero hlen
        simp only [ALG_Encrypt, ALGnew] at henc
        rw [if_neg hp0] at henc
        simp [hlen] at henc
        have hc : c = (ecbEncrypt P (chunks P.blockSize p)).flatten := henc.1.symm
        have hchunklens : ∀ y ∈ ecbEncrypt P (chunks P.blockSize p),
            y.length = P.blockSize := by
          intro y hy
          rcases List.mem_map.mp hy with ⟨x, hx, rfl⟩
          exact hE x (chunks_length_mem P.blockSize hB p hdvd x hx)
        have hclen : c.length = p.length := by
          rw [hc]
          exact chunks_dvd_flatten_length P P.blockSize hB p hdvd P.enc
            (fun x hx => hE x (chunks_length_mem P.blockSize hB p hdvd x hx))
        have hc0 : ¬c.length = 0 := by omega
        have hcmod : c.length % P.blockSize = 0 := by rw [hclen]; exact hlen
        simp only [ALG_Decrypt, ALGnew]
        rw [if_neg (by simp), if_neg (by simp), if_neg hc0, if_neg (by simp [hcmod]),
          if_neg (by simp)]
        simp only
        rw [hc, chunks_flatten_of_length P.blockSize hB _ hchunklens,
          ecb_chunks_roundtrip P hD (chunks P.blockSize p)
            (chunks_length_mem P.blockSize hB p hdvd),
          flatten_chunks P.blockSize hB p]
      · exfalso
        simp only [ALG_Encrypt, ALGnew] at henc
        rw [if_neg hp0, if_pos (by simp [hlen])] at henc
        simp at henc
    | CBC =>
      by_cases hlen : p.length % P.blockSize = 0
      · have hdvd : P.blockSize ∣ p.length := Nat.dvd_of_mod_eq_zero hlen
        have hchl := chunks_length_mem P.blockSize hB p hdvd
        simp only [ALG_Encrypt, ALGnew] at henc
        rw [if_neg hp0] at henc
        simp [hlen, hiv] at henc
        have hc : c = (cbcEncrypt P (chunks P.blockSize p) iv).1.flatten := henc.1.symm
        have hctlens := cbcEncrypt_chunk_lengths P hE (chunks P.blockSize p) iv hiv hchl
        have hclen : c.length = p.length := by
          rw [hc, flatten_length_const P.blockSize _ hctlens, cbcEncrypt_length]
          exact chunks_count_flatten P.blockSize hB p hdvd
        have hc0 : ¬c.length = 0 := by omega
        have hcmod : c.length % P.blockSize = 0 := by rw [hclen]; exact hlen
        simp only [ALG_Decrypt, ALGnew]
        rw [if_neg (by simp), if_neg (by simp), if_neg hc0, if_neg (by simp [hcmod]),
          if_neg (by simp)]
        simp only
        rw [show (iv ++ List.replicate (P.blockSize - iv.length) 0) = iv by
            simp [hiv],
          hc, chunks_flatten_of_length P.blockSize hB _ hctlens,
          cbc_chunks_roundtrip P hE hD (chunks P.blockSize p) iv
            (List.replicate P.blockSize 0) hiv hchl,
          flatten_chunks P.blockSize hB p]
      · exfalso
        simp only [ALG_Encrypt, ALGnew] at henc
        rw [if_neg hp0, if_pos (by simp [hlen])] at henc
        simp at henc
    | CFB =>
      have hseg' := hseg rfl
      have hs0 : seg ≠ 0 := by omega
      have hsz1 : 1 ≤ seg / 8 := (Nat.one_le_div_iff (by omega)).mpr hseg'.2.1
      have hszB : seg / 8 ≤ P.blockSize := by
        have h1 : seg / 8 ≤ P.blockSize * 8 / 8 := Nat.div_le_div_right hseg'.2.2
        rwa [Nat.mul_div_cancel P.blockSize (by omega)] at h1
      by_cases hlen : p.length % (seg / 8) = 0
      · have hdvd : (seg / 8) ∣ p.length := Nat.dvd_of_mod_eq_zero hlen
        have hchl := chunks_length_mem (seg / 8) (by omega) p hdvd
        simp only [ALG_Encrypt, ALGnew] at henc
        rw [if_neg hp0] at henc
        simp [hlen, hiv, hs0] at henc
        have hc : c = (cfbEncrypt P seg (chunks (seg / 8) p) iv).1.flatten := henc.1.symm
        have hctlens := cfbEncrypt_chunk_lengths P hE seg hszB (chunks (seg / 8) p) iv
          hiv hchl
        have hclen : c.length = p.length := by
          rw [hc, flatten_length_const (seg / 8) _ hctlens, cfbEncrypt_length]
          exact chunks_count_flatten (seg / 8) (by omega) p hdvd
        have hc0 : ¬c.length = 0 := by omega
        have hcmod : c.length % (seg / 8) = 0 := by rw [hclen]; exact hlen
        simp only [ALG_Decrypt, ALGnew]
        rw [if_neg (by simp), if_neg (by simp), if_neg hc0, if_neg (by simp),
          if_neg (by simp [hs0, hcmod])]
        simp only
        simp only [true_and]
        rw [if_neg hs0,
          show (iv ++ List.replicate (P.blockSize - iv.length) 0) = iv by simp [hiv],
          hc, chunks_flatten_of_length (seg / 8) (by omega) _ hctlens,
          cfb_chunks_roundtrip P hE seg hszB (chunks (seg / 8) p) iv hiv hchl,
          flatten_chunks (seg / 8) (by omega) p]
      · exfalso
        simp only [ALG_Encrypt, ALGnew] at henc
        rw [if_neg hp0, if_neg (by simp), if_pos (by simp [hs0, hlen])] at henc
        simp at henc
    | PGP =>
      have hold : (List.replicate P.blockSize 0 : List Nat).length = P.blockSize := by
        simp
      simp only [ALG_Encrypt, ALGnew] at henc
      rw [if_neg hp0] at henc
      simp [hiv] at henc
      have hc : c = (pgpEncrypt P (List.replicate P.blockSize 0) iv 8 p).1 :=
        henc.1.symm
      have hround := pgp_roundtrip P hE (List.replicate P.blockSize 0) iv 8 hold hiv p
      have hclen : c.length = p.length := by rw [hc]; exact hround.2
      have hc0 : ¬c.length = 0 := by omega
      simp only [ALG_Decrypt, ALGnew]
      rw [if_neg (by simp), if_neg (by simp), if_neg hc0, if_neg (by simp),
        if_neg (by simp)]
      simp only
      simp only [if_true]
      rw [show (iv ++ List.replicate (P.blockSize - iv.length) 0) = iv by simp [hiv],
        hc, hround.1]
    | OFB =>
      by_cases hlen : p.length % P.blockSize = 0
      · have hdvd : P.blockSize ∣ p.length := Nat.dvd_of_mod_eq_zero hlen
        have hchl := chunks_length_mem P.blockSize hB p hdvd
        simp only [ALG_Encrypt, ALGnew] at henc
        rw [if_neg hp0] at henc
        simp [hlen, hiv] at henc
        have hc : c = (ofbEncrypt P (chunks P.blockSize p) iv).1.flatten := henc.1.symm
        have hctlens := ofbEncrypt_chunk_lengths P hE (chunks P.blockSize p) iv hiv hchl
        have hclen : c.length = p.length := by
          rw [hc, flatten_length_const P.blockSize _ hctlens, ofbEncrypt_length]
          exact chunks_count_flatten P.blockSize hB p hdvd
        have hc0 : ¬c.length = 0 := by omega
        have hcmod : c.length % P.blockSize = 0 := by rw [hclen]; exact hlen
        simp only [ALG_Decrypt, ALGnew]
        rw [if_neg (by simp), if_neg (by simp), if_neg hc0, if_neg (by simp [hcmod]),
          if_neg (by simp)]
        simp only
        rw [show (iv ++ List.replicate (P.blockSize - iv.length) 0) = iv by simp [hiv],
          hc, chunks_flatten_of_length P.blockSize hB _ hctlens,
          ofb_chunks_roundtrip P hE (chunks P.blockSize p) iv hiv hchl,
          flatten_chunks P.blockSize hB p]
      · exfalso
        simp only [ALG_Encrypt, ALGnew] at henc
        rw [if_neg hp0, if_pos (by simp [hlen])] at henc
        simp at henc
    | CTR =>
      simp only [ALG_Encrypt, ALGnew] at henc
      rw [if_neg hp0, if_neg (by simp), if_neg (by simp)] at henc
      simp only [show (iv ++ List.replicate (P.blockSize - iv.length) 0) = iv by
          simp [hiv],
        show (if Mode.CTR = Mode.PGP then 8 else P.blockSize) = P.blockSize by simp]
        at henc
      have h1 : (ctrEncLoop P iv P.blockSize src p).1 = .ok c := by
        have h2 := congrArg Prod.fst henc
        simpa using h2
      have hround := ctr_loop_roundtrip P hE iv P.blockSize src p c
        (ctrEncLoop P iv P.blockSize src p).2 hiv (Prod.ext h1 rfl)
      have hc0 : ¬c.length = 0 := by
        have := hround.1
        omega
      simp only [ALG_Decrypt, ALGnew]
      rw [if_neg (by simp), if_pos (by simp)]
      simp only [ALG_Encrypt]
      rw [if_neg hc0, if_neg (by simp), if_neg (by simp)]
      simp only [show (iv ++ List.replicate (P.blockSize - iv.length) 0) = iv by
          simp [hiv],
        show (if Mode.CTR = Mode.PGP then 8 else P.blockSize) = P.blockSize by simp]
      exact hround.2

/-- Witness for C1: a concrete ECB roundtrip over the one-byte primitive
`P1` (encrypt [5] to [6] on a fresh engine, decrypt [6] back to [5] on an
identically configured fresh engine). -/
theorem encrypt_then_decrypt_roundtrip_witness :
    (ALG_Decrypt P1 (ALGnew P1 Mode.ECB [0] 0 CtrSource.noCounter) [6]).1 = .ok [5] :=
  encrypt_then_decrypt_roundtrip P1
    (fun _ _ => rfl)
    (fun b hb => by
      cases b with
      | nil => simp [P1] at hb
      | cons x t =>
        cases t with
        | nil => simp [P1]
        | cons y u => simp [P1] at hb)
    Mode.ECB [0] 0 CtrSource.noCounter rfl (by simp)
    [5] [6] (ALGnew P1 Mode.ECB [0] 0 CtrSource.noCounter) rfl

end CharmCryptobase
